import Mathlib

/-!
# Verification of the Clutter box-layout distribution algorithm

Shallow embedding of `clutter/clutter-box-layout.c` (size negotiation and
allocation of `ClutterBoxLayout`).  `gfloat` quantities are modelled at
integer granularity (`Int`); `gint` arithmetic uses `Int`, with C's
truncating division/remainder rendered as `Int.tdiv` / `Int.tmod`.
-/

namespace Clutter

/-- `struct _ClutterRequestedSize`: the minimum and natural size reported by
one visible child along the primary axis (the `actor` pointer is irrelevant
to the arithmetic and omitted). -/
structure RequestedSize where
  minimum_size : Int
  natural_size : Int
deriving Repr, DecidableEq

/-- Read `sizes[j]`; out-of-range reads (which the C code never performs)
default to `⟨0, 0⟩`. -/
def getReq (sizes : List RequestedSize) (j : Nat) : RequestedSize :=
  sizes.getD j ⟨0, 0⟩

/-- `sizes[idx].minimum_size += extra` (a no-op out of range). -/
def bumpMin (sizes : List RequestedSize) (idx : Nat) (extra : Int) :
    List RequestedSize :=
  match sizes[idx]? with
  | some r => sizes.set idx { r with minimum_size := r.minimum_size + extra }
  | none => sizes

/-- Sum of the `minimum_size` fields of a request array. -/
def sumMins (sizes : List RequestedSize) : Int :=
  (sizes.map (·.minimum_size)).sum

/-- The quantity `MAX (natural_size - minimum_size, 0)` computed for index
`c` in `compare_gap`. -/
def clampedGap (sizes : List RequestedSize) (c : Nat) : Int :=
  max ((getReq sizes c).natural_size - (getReq sizes c).minimum_size) 0

/-- The order in which `g_qsort_with_data` with comparator `compare_gap`
arranges the `spreading` index array: `c1` may precede `c2` iff
`compare_gap c1 c2 <= 0`, i.e. descending by `(clampedGap, index)`. -/
def gapBefore (sizes : List RequestedSize) (c1 c2 : Nat) : Prop :=
  clampedGap sizes c2 < clampedGap sizes c1 ∨
    (clampedGap sizes c1 = clampedGap sizes c2 ∧ c2 ≤ c1)

instance gapBefore.decidableRel (sizes : List RequestedSize) :
    DecidableRel (gapBefore sizes) := fun c1 c2 => by
  unfold gapBefore; infer_instance

instance gapBefore.isTotal (sizes : List RequestedSize) :
    IsTotal Nat (gapBefore sizes) where
  total c1 c2 := by
    unfold gapBefore
    rcases lt_trichotomy (clampedGap sizes c1) (clampedGap sizes c2) with h | h | h
    · exact Or.inr (Or.inl h)
    · rcases Nat.le_total c1 c2 with hc | hc
      · exact Or.inr (Or.inr ⟨h.symm, hc⟩)
      · exact Or.inl (Or.inr ⟨h, hc⟩)
    · exact Or.inl (Or.inl h)

instance gapBefore.isTrans (sizes : List RequestedSize) :
    IsTrans Nat (gapBefore sizes) where
  trans a b c hab hbc := by
    unfold gapBefore at *
    rcases hab with h1 | ⟨h1, h1'⟩ <;> rcases hbc with h2 | ⟨h2, h2'⟩
    · exact Or.inl (h2.trans h1)
    · exact Or.inl (h2 ▸ h1)
    · exact Or.inl (h1 ▸ h2)
    · exact Or.inr ⟨h1.trans h2, h2'.trans h1'⟩

/-- The `spreading` array right after
`g_qsort_with_data (spreading, n, sizeof (guint), compare_gap, sizes)`:
the indices `0, …, n-1` sorted descending by `(gap, index)`.  Since
`compare_gap` never reports a tie between distinct indices, the sorted
array is unique, and insertion sort computes it. -/
def spreading (sizes : List RequestedSize) : List Nat :=
  List.insertionSort (gapBefore sizes) (List.range sizes.length)

/-- The distribution loop of `distribute_natural_allocation`:
`order` carries the pairs `(i, spreading[i])` for `i = n-1, n-2, …, 0`
(the loop walks the sorted array from its tail), and the loop stops as
soon as `extra_space` is no longer positive.
Each step computes `glue = (extra_space + i) / (i + 1)` (`gint` division),
`gap = sizes[spreading[i]].natural_size - sizes[spreading[i]].minimum_size`,
adds `extra = MIN (glue, gap)` to `sizes[spreading[i]].minimum_size` and
subtracts it from `extra_space`. -/
def distributeLoop :
    List (Nat × Nat) → Int → List RequestedSize → Int × List RequestedSize
  | [], extra_space, sizes => (extra_space, sizes)
  | (i, idx) :: rest, extra_space, sizes =>
    if 0 < extra_space then
      let glue := (extra_space + (i : Int)).tdiv ((i : Int) + 1)
      let gap := (getReq sizes idx).natural_size - (getReq sizes idx).minimum_size
      let extra := min glue gap
      distributeLoop rest (extra_space - extra) (bumpMin sizes idx extra)
    else
      (extra_space, sizes)

/-- `distribute_natural_allocation (extra_space, n_requested_sizes, sizes)`:
distributes `extra_space` among the requests by raising `minimum_size`
members toward `natural_size`, returning the leftover space together with
the updated array.  `g_return_val_if_fail (extra_space >= 0, 0)` makes a
negative `extra_space` return `0` at once without touching the array. -/
def distribute_natural_allocation (extra_space : Int)
    (sizes : List RequestedSize) : Int × List RequestedSize :=
  if extra_space < 0 then (0, sizes)
  else distributeLoop (spreading sizes).enum.reverse extra_space sizes

/-- The sequence of request indices visited by the distribution loop of
`distribute_natural_allocation` (first visited first): the loop walks the
descending-sorted `spreading` array from its last entry to its first. -/
def processingOrder (sizes : List RequestedSize) : List Nat :=
  (spreading sizes).reverse

/-- Modelled from the spec's words for claim C1 (refinement comparison
only; the source definition is `distribute_natural_allocation`): the same
per-step arithmetic, but iterating from the largest-gap item to the
smallest, i.e. consuming the descending-sorted index array from its head,
with `i` still counting the items remaining after the current one. -/
def distributeSpecLargestFirst (extra_space : Int)
    (sizes : List RequestedSize) : Int × List RequestedSize :=
  if extra_space < 0 then (0, sizes)
  else
    distributeLoop
      ((spreading sizes).enum.map (fun p => (sizes.length - 1 - p.1, p.2)))
      extra_space sizes

/-! ## The allocation pass (`clutter_box_layout_allocate`)

The model covers a child list whose members are all visible (the sizing
claims quantify over visible children; invisible children are skipped by
the C loops). -/

/-- One child of the container together with its `ClutterBoxChild` layout
properties: the preferred size it reports along the primary axis, and the
`expand` / fill flags. -/
structure ChildSpec where
  minimum_size : Int
  natural_size : Int
  expand : Bool
  x_fill : Bool
  y_fill : Bool
deriving Repr, DecidableEq

/-- `ClutterActorBox`. -/
structure ActorBox where
  x1 : Int
  y1 : Int
  x2 : Int
  y2 : Int
deriving Repr, DecidableEq

/-- The `ClutterBoxLayoutPrivate` configuration consulted by the
allocation pass, plus the container's text direction. -/
structure LayoutConfig where
  is_vertical : Bool
  is_homogeneous : Bool
  is_pack_start : Bool
  spacing : Int
  is_rtl : Bool
deriving Repr, DecidableEq

/-- Build the `sizes[i]` entry from a child's reported preferred size. -/
def toRequest (c : ChildSpec) : RequestedSize :=
  ⟨c.minimum_size, c.natural_size⟩

/-- `nexpand_children` as computed by `count_expand_children`. -/
def countExpand (children : List ChildSpec) : Nat :=
  children.countP (·.expand)

/-- The size-assignment part of the allocation loop, walking the children
in reverse declaration order.  Input pairs are `(child, sizes[i].minimum_size)`
in walk order; output triples are `(child, child_size, sizes[i].minimum_size)`.
Homogeneous mode: `child_size = extra`, and while `n_extra_widgets > 0` a
child gets one more unit and the counter drops.  Non-homogeneous mode:
`child_size = sizes[i].minimum_size`, and only `expand` children add
`extra` plus possibly one extra unit. -/
def assignSizes (homog : Bool) (extra : Int) :
    Int → List (ChildSpec × Int) → List (ChildSpec × Int × Int)
  | _, [] => []
  | n_extra, (c, m) :: rest =>
    if homog then
      (c, (if 0 < n_extra then extra + 1 else extra), m) ::
        assignSizes homog extra
          (if 0 < n_extra then n_extra - 1 else n_extra) rest
    else if c.expand then
      (c, (if 0 < n_extra then m + extra + 1 else m + extra), m) ::
        assignSizes homog extra
          (if 0 < n_extra then n_extra - 1 else n_extra) rest
    else
      (c, m, m) :: assignSizes homog extra n_extra rest

/-- The sizing phase of `clutter_box_layout_allocate` for primary extent
`ext`: computes, in walk order (reverse declaration order), each child's
`child_size` together with the `sizes[i].minimum_size` value current at
walk time (raised by `distribute_natural_allocation` in non-homogeneous
mode, untouched in homogeneous mode). -/
def sizedChildren (cfg : LayoutConfig) (children : List ChildSpec)
    (ext : Int) : List (ChildSpec × Int × Int) :=
  let n := children.length
  let avail := ext - ((n : Int) - 1) * cfg.spacing
  if cfg.is_homogeneous then
    assignSizes true (avail.tdiv (n : Int)) (avail.tmod (n : Int))
      (children.reverse.zip (children.map (·.minimum_size)).reverse)
  else
    let slack := avail - (children.map (·.minimum_size)).sum
    let res := distribute_natural_allocation (max 0 slack)
      (children.map toRequest)
    let nexpand := countExpand children
    let extra := if 0 < nexpand then res.1.tdiv (nexpand : Int) else 0
    let n_extra := if 0 < nexpand then res.1.tmod (nexpand : Int) else 0
    assignSizes false extra n_extra
      (children.reverse.zip (res.2.map (·.minimum_size)).reverse)

/-- The `child_size` values of the allocation pass, in walk order. -/
def boxChildSizes (cfg : LayoutConfig) (children : List ChildSpec)
    (ext : Int) : List Int :=
  (sizedChildren cfg children ext).map (fun t => t.2.1)

/-- Position walk of the vertical branch: cursor `y` starts at `0`
(`pack-start`) or at the box height (pack-end); cross axis is
`x1 = 0, x2 = MAX (1.0, W)`. -/
def vWalk (spacing : Int) (pack_start : Bool) (W : Int) :
    Int → List (ChildSpec × Int × Int) → List ActorBox
  | _, [] => []
  | y, (c, cs, m) :: rest =>
    let y1 := if c.y_fill then y else y + (cs - m).tdiv 2
    let y2 := if c.y_fill then y + max 1 cs else y + (cs - m).tdiv 2 + m
    if pack_start then
      ⟨0, y1, max 1 W, y2⟩ ::
        vWalk spacing pack_start W (y + cs + spacing) rest
    else
      ⟨0, y1 - cs, max 1 W, y2 - cs⟩ ::
        vWalk spacing pack_start W (y - (cs + spacing)) rest

/-- Position walk of the horizontal branch, including the RTL mirroring
applied per child after the pack-end shift. -/
def hWalk (spacing : Int) (pack_start rtl : Bool) (W H : Int) :
    Int → List (ChildSpec × Int × Int) → List ActorBox
  | _, [] => []
  | x, (c, cs, m) :: rest =>
    let x1 := if c.x_fill then x else x + (cs - m).tdiv 2
    let x2 := if c.x_fill then x + max 1 cs else x + (cs - m).tdiv 2 + m
    let xs1 := if pack_start then x1 else x1 - cs
    let xs2 := if pack_start then x2 else x2 - cs
    let xf1 := if rtl then W - xs1 - (xs2 - xs1) else xs1
    let xf2 := if rtl then (W - xs1 - (xs2 - xs1)) + (xs2 - xs1) else xs2
    let xnext := if pack_start then x + cs + spacing else x - (cs + spacing)
    ⟨xf1, 0, xf2, max 1 H⟩ :: hWalk spacing pack_start rtl W H xnext rest

/-- `box->y2 - box->y1` for a vertical layout, `box->x2 - box->x1`
otherwise. -/
def primaryExtent (cfg : LayoutConfig) (box : ActorBox) : Int :=
  if cfg.is_vertical then box.y2 - box.y1 else box.x2 - box.x1

/-- The box extent on the axis perpendicular to the primary one. -/
def crossExtent (cfg : LayoutConfig) (box : ActorBox) : Int :=
  if cfg.is_vertical then box.x2 - box.x1 else box.y2 - box.y1

/-- Primary-axis span of an allocated rectangle. -/
def primarySpan (cfg : LayoutConfig) (b : ActorBox) : Int :=
  if cfg.is_vertical then b.y2 - b.y1 else b.x2 - b.x1

/-- Cross-axis span of an allocated rectangle. -/
def crossSpan (cfg : LayoutConfig) (b : ActorBox) : Int :=
  if cfg.is_vertical then b.x2 - b.x1 else b.y2 - b.y1

/-- The fill flag of a child on the primary axis. -/
def primaryFill (cfg : LayoutConfig) (c : ChildSpec) : Bool :=
  if cfg.is_vertical then c.y_fill else c.x_fill

/-- `clutter_box_layout_allocate`: returns the children's rectangles in
walk order (reverse declaration order), `none` when some child reports an
inconsistent preferred size (`minimum < 0` or `natural < minimum`), in
which case `g_error` aborts before any allocation is delivered.  With no
visible child the pass does nothing. -/
def clutter_box_layout_allocate (cfg : LayoutConfig)
    (children : List ChildSpec) (box : ActorBox) : Option (List ActorBox) :=
  if children.isEmpty then some []
  else if ∀ c ∈ children,
      0 ≤ c.minimum_size ∧ c.minimum_size ≤ c.natural_size then
    let W := box.x2 - box.x1
    let H := box.y2 - box.y1
    let sc := sizedChildren cfg children (primaryExtent cfg box)
    if cfg.is_vertical then
      some (vWalk cfg.spacing cfg.is_pack_start W
        (if cfg.is_pack_start then 0 else H) sc)
    else
      some (hWalk cfg.spacing cfg.is_pack_start cfg.is_rtl W H
        (if cfg.is_pack_start then 0 else W) sc)
  else none

/-- The RTL mirroring step applied to a child's horizontal span
(lines computing `child_allocation.x1/x2` under `is_rtl`). -/
def mirrorSpanX (W : Int) (b : ActorBox) : ActorBox :=
  { b with
    x1 := W - b.x1 - (b.x2 - b.x1)
    x2 := (W - b.x1 - (b.x2 - b.x1)) + (b.x2 - b.x1) }

/-! ## The preferred-size queries (`get_preferred_width` / `_height`) -/

/-- A child as seen by the measurement pass: visibility plus the
minimum/natural sizes it reports on each axis (the `for_*` constraint is
forwarded to the child and does not enter this component's arithmetic). -/
structure MeasureChild where
  visible : Bool
  w_min : Int
  w_nat : Int
  h_min : Int
  h_nat : Int
deriving Repr, DecidableEq

/-- Accumulation loop of `get_preferred_width`: skips invisible children,
maxes child widths when the layout is vertical, sums them otherwise, and
counts visible children. -/
def measureWidthLoop (is_vertical : Bool) :
    List MeasureChild → Int → Int → Nat → Int × Int × Nat
  | [], acc_min, acc_nat, n => (acc_min, acc_nat, n)
  | c :: rest, acc_min, acc_nat, n =>
    if c.visible then
      if is_vertical then
        measureWidthLoop is_vertical rest (max c.w_min acc_min)
          (max c.w_nat acc_nat) (n + 1)
      else
        measureWidthLoop is_vertical rest (acc_min + c.w_min)
          (acc_nat + c.w_nat) (n + 1)
    else
      measureWidthLoop is_vertical rest acc_min acc_nat n

/-- Accumulation loop of `get_preferred_height`: sums child heights when
the layout is vertical, maxes them otherwise. -/
def measureHeightLoop (is_vertical : Bool) :
    List MeasureChild → Int → Int → Nat → Int × Int × Nat
  | [], acc_min, acc_nat, n => (acc_min, acc_nat, n)
  | c :: rest, acc_min, acc_nat, n =>
    if c.visible then
      if is_vertical then
        measureHeightLoop is_vertical rest (acc_min + c.h_min)
          (acc_nat + c.h_nat) (n + 1)
      else
        measureHeightLoop is_vertical rest (max c.h_min acc_min)
          (max c.h_nat acc_nat) (n + 1)
    else
      measureHeightLoop is_vertical rest acc_min acc_nat n

/-- `get_preferred_width`: accumulators start at `0`; for a horizontal
layout with RTL text direction the children are iterated in reverse;
`spacing * (n_children - 1)` is added only for a horizontal layout with
more than one visible child. -/
def get_preferred_width (is_vertical : Bool) (spacing : Int)
    (container_rtl : Bool) (children : List MeasureChild) : Int × Int :=
  let is_rtl := if is_vertical then false else container_rtl
  let l := if is_rtl then children.reverse else children
  let r := measureWidthLoop is_vertical l 0 0 0
  if ¬ is_vertical ∧ 1 < r.2.2 then
    (r.1 + spacing * ((r.2.2 : Int) - 1), r.2.1 + spacing * ((r.2.2 : Int) - 1))
  else (r.1, r.2.1)

/-- `get_preferred_height`: dual of `get_preferred_width`; the spacing
term is added only for a vertical layout with more than one visible
child. -/
def get_preferred_height (is_vertical : Bool) (spacing : Int)
    (container_rtl : Bool) (children : List MeasureChild) : Int × Int :=
  let is_rtl := if is_vertical then false else container_rtl
  let l := if is_rtl then children.reverse else children
  let r := measureHeightLoop is_vertical l 0 0 0
  if is_vertical ∧ 1 < r.2.2 then
    (r.1 + spacing * ((r.2.2 : Int) - 1), r.2.1 + spacing * ((r.2.2 : Int) - 1))
  else (r.1, r.2.1)

/-! ## Basic facts about `bumpMin`, `getReq` and `sumMins` -/

theorem bumpMin_length (s : List RequestedSize) (idx : Nat) (x : Int) :
    (bumpMin s idx x).length = s.length := by
  unfold bumpMin
  cases h : s[idx]? with
  | none => rfl
  | some r => simp [List.length_set]

theorem bumpMin_oob (s : List RequestedSize) (idx : Nat) (x : Int)
    (h : s.length ≤ idx) : bumpMin s idx x = s := by
  unfold bumpMin
  rw [List.getElem?_eq_none h]

theorem getReq_oob (s : List RequestedSize) (j : Nat) (h : s.length ≤ j) :
    getReq s j = ⟨0, 0⟩ := by
  unfold getReq
  rw [List.getD_eq_getElem?_getD, List.getElem?_eq_none h]
  rfl

theorem getReq_bumpMin_self (s : List RequestedSize) (idx : Nat) (x : Int)
    (h : idx < s.length) :
    getReq (bumpMin s idx x) idx =
      ⟨(getReq s idx).minimum_size + x, (getReq s idx).natural_size⟩ := by
  unfold bumpMin getReq
  rw [List.getElem?_eq_getElem h]
  simp only [List.getD_eq_getElem?_getD, List.getElem?_set_self
    (by simpa using h), Option.getD_some, List.getElem?_eq_getElem h]

theorem getReq_bumpMin_ne (s : List RequestedSize) (idx : Nat) (x : Int)
    (j : Nat) (h : j ≠ idx) : getReq (bumpMin s idx x) j = getReq s j := by
  unfold bumpMin getReq
  cases hg : s[idx]? with
  | none => rfl
  | some r =>
    simp only [List.getD_eq_getElem?_getD,
      List.getElem?_set_ne (Ne.symm h)]

theorem sumMins_set (s : List RequestedSize) (idx : Nat) (r : RequestedSize) :
    ∀ _h : idx < s.length,
      sumMins (s.set idx r) =
        sumMins s + r.minimum_size - (getReq s idx).minimum_size := by
  induction s generalizing idx with
  | nil => intro h; exact absurd h (by simp)
  | cons a t ih =>
    intro h
    cases idx with
    | zero =>
      simp [sumMins, getReq]
      ring
    | succ k =>
      have hk : k < t.length := by simpa using h
      have := ih k hk
      simp only [List.set_cons_succ, sumMins, List.map_cons, List.sum_cons] at *
      have hgr : getReq (a :: t) (k + 1) = getReq t k := by
        unfold getReq
        simp [List.getD_eq_getElem?_getD]
      rw [hgr]
      omega

theorem sumMins_bumpMin (s : List RequestedSize) (idx : Nat) (x : Int)
    (h : idx < s.length) : sumMins (bumpMin s idx x) = sumMins s + x := by
  unfold bumpMin
  rw [List.getElem?_eq_getElem h]
  have hget : getReq s idx = s[idx] := by
    unfold getReq
    rw [List.getD_eq_getElem?_getD, List.getElem?_eq_getElem h]
    rfl
  rw [sumMins_set s idx _ h, hget]
  simp only []
  omega

/-! ## Bounds on `glue = (extra_space + i) / (i + 1)` -/

theorem glue_nonneg (e : Int) (i : Nat) (he : 0 < e) :
    0 ≤ (e + (i : Int)).tdiv ((i : Int) + 1) :=
  Int.tdiv_nonneg (by omega) (by omega)

theorem glue_le (e : Int) (i : Nat) (he : 0 < e) :
    (e + (i : Int)).tdiv ((i : Int) + 1) ≤ e := by
  rw [Int.tdiv_eq_ediv (by omega) (by omega)]
  have h1 : e + (i : Int) ≤ e * ((i : Int) + 1) := by nlinarith [Int.ofNat_nonneg i]
  calc (e + (i : Int)) / ((i : Int) + 1)
      ≤ e * ((i : Int) + 1) / ((i : Int) + 1) := Int.ediv_le_ediv (by omega) h1
    _ = e := Int.mul_ediv_cancel e (by omega)

theorem glue_mono (e e' : Int) (i : Nat) (h0 : 0 < e) (hee : e ≤ e') :
    (e + (i : Int)).tdiv ((i : Int) + 1) ≤
      (e' + (i : Int)).tdiv ((i : Int) + 1) := by
  rw [Int.tdiv_eq_ediv (by omega) (by omega),
    Int.tdiv_eq_ediv (by omega) (by omega)]
  exact Int.ediv_le_ediv (by omega) (by omega)

theorem glue_add_bound (e e' : Int) (i : Nat) (h0 : 0 < e) (hee : e ≤ e') :
    (e' + (i : Int)).tdiv ((i : Int) + 1) ≤
      (e + (i : Int)).tdiv ((i : Int) + 1) + (e' - e) := by
  rw [Int.tdiv_eq_ediv (by omega) (by omega),
    Int.tdiv_eq_ediv (by omega) (by omega)]
  have hi : (0 : Int) ≤ (i : Int) := Int.ofNat_nonneg i
  have h1 : e' + (i : Int) ≤ (e + (i : Int)) + (e' - e) * ((i : Int) + 1) := by
    nlinarith
  calc (e' + (i : Int)) / ((i : Int) + 1)
      ≤ ((e + (i : Int)) + (e' - e) * ((i : Int) + 1)) / ((i : Int) + 1) :=
        Int.ediv_le_ediv (by omega) h1
    _ = (e + (i : Int)) / ((i : Int) + 1) + (e' - e) :=
        Int.add_mul_ediv_right _ _ (by omega)

/-! ## The main invariant of the distribution loop -/

/-- Invariant of the distribution loop: starting from a consistent request
array (`minimum_size ≤ natural_size` everywhere) and nonnegative
`extra_space`, the loop keeps the leftover in `[0, extra_space]`, never
touches natural sizes, only raises minimum sizes, never raises a minimum
above its natural size, and conserves `sum of minimums + leftover`. -/
theorem distributeLoop_invariant (l : List (Nat × Nat)) (e : Int)
    (s : List RequestedSize) (he : 0 ≤ e)
    (hvalid : ∀ j, (getReq s j).minimum_size ≤ (getReq s j).natural_size) :
    (distributeLoop l e s).2.length = s.length ∧
    0 ≤ (distributeLoop l e s).1 ∧
    (distributeLoop l e s).1 ≤ e ∧
    (∀ j, (getReq (distributeLoop l e s).2 j).natural_size =
          (getReq s j).natural_size) ∧
    (∀ j, (getReq s j).minimum_size ≤
          (getReq (distributeLoop l e s).2 j).minimum_size) ∧
    (∀ j, (getReq (distributeLoop l e s).2 j).minimum_size ≤
          (getReq s j).natural_size) ∧
    sumMins (distributeLoop l e s).2 + (distributeLoop l e s).1 =
      sumMins s + e := by
  induction l generalizing e s with
  | nil =>
    exact ⟨rfl, he, le_refl e, fun j => rfl, fun j => le_refl _,
      fun j => hvalid j, rfl⟩
  | cons p rest ih =>
    obtain ⟨i, idx⟩ := p
    by_cases hpos : 0 < e
    · simp only [distributeLoop, if_pos hpos]
      set glue := (e + (i : Int)).tdiv ((i : Int) + 1) with hglue
      set gap := (getReq s idx).natural_size - (getReq s idx).minimum_size
        with hgap
      set extra := min glue gap with hextra
      have hgap0 : 0 ≤ gap := by
        have := hvalid idx; omega
      have hglue0 : 0 ≤ glue := glue_nonneg e i hpos
      have hgluee : glue ≤ e := glue_le e i hpos
      have hextra0 : 0 ≤ extra := le_min hglue0 hgap0
      have hextrae : extra ≤ e := le_trans (min_le_left _ _) hgluee
      have hextragap : extra ≤ gap := min_le_right _ _
      have he2 : 0 ≤ e - extra := by omega
      have hvalid2 : ∀ j, (getReq (bumpMin s idx extra) j).minimum_size ≤
          (getReq (bumpMin s idx extra) j).natural_size := by
        intro j
        by_cases hj : j = idx
        · subst hj
          rcases Nat.lt_or_ge j s.length with hlt | hge
          · rw [getReq_bumpMin_self s j extra hlt]
            have := hvalid j
            simp only []
            omega
          · rw [bumpMin_oob s j extra hge]
            exact hvalid j
        · rw [getReq_bumpMin_ne s idx extra j hj]
          exact hvalid j
      obtain ⟨ihlen, ih0, ihle, ihnat, ihlo, ihhi, ihsum⟩ :=
        ih (e - extra) (bumpMin s idx extra) he2 hvalid2
      have hblen := bumpMin_length s idx extra
      refine ⟨ihlen.trans hblen, ih0, le_trans ihle (by omega), ?_, ?_, ?_, ?_⟩
      · intro j
        rw [ihnat j]
        by_cases hj : j = idx
        · subst hj
          rcases Nat.lt_or_ge j s.length with hlt | hge
          · rw [getReq_bumpMin_self s j extra hlt]
          · rw [bumpMin_oob s j extra hge]
        · rw [getReq_bumpMin_ne s idx extra j hj]
      · intro j
        refine le_trans ?_ (ihlo j)
        by_cases hj : j = idx
        · subst hj
          rcases Nat.lt_or_ge j s.length with hlt | hge
          · rw [getReq_bumpMin_self s j extra hlt]; simp only []; omega
          · rw [bumpMin_oob s j extra hge]
        · rw [getReq_bumpMin_ne s idx extra j hj]
      · intro j
        refine le_trans (ihhi j) ?_
        by_cases hj : j = idx
        · subst hj
          rcases Nat.lt_or_ge j s.length with hlt | hge
          · rw [getReq_bumpMin_self s j extra hlt]
          · rw [bumpMin_oob s j extra hge]
        · rw [getReq_bumpMin_ne s idx extra j hj]
      · rcases Nat.lt_or_ge idx s.length with hlt | hge
        · rw [ihsum, sumMins_bumpMin s idx extra hlt]; ring
        · have hoob : gap = 0 := by
            rw [hgap, getReq_oob s idx hge]
            simp
          have hex0 : extra = 0 := by
            rw [hextra, hoob]
            exact min_eq_right hglue0
          rw [ihsum, bumpMin_oob s idx extra hge, hex0]
          ring
    · have hstep : distributeLoop ((i, idx) :: rest) e s = (e, s) := by
        simp only [distributeLoop, if_neg hpos]
      rw [hstep]
      exact ⟨rfl, he, le_refl e, fun j => rfl, fun j => le_refl _,
        fun j => hvalid j, rfl⟩

/-- Comparison of two runs of the distribution loop over the same visit
list: with more space available (and entry minimums no smaller, equal on
the indices still to be visited), the loop ends with no less leftover and
no smaller minimums.  The visit list must not repeat an index (the sorted
`spreading` array never does). -/
theorem distributeLoop_mono (l : List (Nat × Nat)) (e e' : Int)
    (s s' : List RequestedSize)
    (hnodup : (l.map Prod.snd).Nodup)
    (he : 0 ≤ e) (hee : e ≤ e')
    (hlen : s'.length = s.length)
    (hnat : ∀ j, (getReq s' j).natural_size = (getReq s j).natural_size)
    (hmin : ∀ j, (getReq s j).minimum_size ≤ (getReq s' j).minimum_size)
    (heq : ∀ p ∈ l, (getReq s' p.2).minimum_size = (getReq s p.2).minimum_size)
    (hvalid : ∀ j, (getReq s j).minimum_size ≤ (getReq s j).natural_size)
    (hvalid' : ∀ j, (getReq s' j).minimum_size ≤ (getReq s' j).natural_size) :
    (distributeLoop l e s).1 ≤ (distributeLoop l e' s').1 ∧
    ∀ j, (getReq (distributeLoop l e s).2 j).minimum_size ≤
      (getReq (distributeLoop l e' s').2 j).minimum_size := by
  induction l generalizing e e' s s' with
  | nil => exact ⟨hee, hmin⟩
  | cons p rest ih =>
    obtain ⟨i, idx⟩ := p
    have hnodup' : (idx :: rest.map Prod.snd).Nodup := hnodup
    have hidx_rest : idx ∉ rest.map Prod.snd :=
      (List.nodup_cons.mp hnodup').1
    have hnodup_rest : (rest.map Prod.snd).Nodup :=
      (List.nodup_cons.mp hnodup').2
    by_cases hpos : 0 < e
    · have hpos' : 0 < e' := lt_of_lt_of_le hpos hee
      simp only [distributeLoop, if_pos hpos, if_pos hpos']
      set glue := (e + (i : Int)).tdiv ((i : Int) + 1) with hglue_def
      set glue' := (e' + (i : Int)).tdiv ((i : Int) + 1) with hglue'_def
      have hgapeq : (getReq s' idx).natural_size - (getReq s' idx).minimum_size
          = (getReq s idx).natural_size - (getReq s idx).minimum_size := by
        rw [hnat idx, heq (i, idx) (List.mem_cons_self _ _)]
      rw [hgapeq]
      set gap := (getReq s idx).natural_size - (getReq s idx).minimum_size
        with hgap_def
      set extra := min glue gap with hextra_def
      set extra' := min glue' gap with hextra'_def
      have hgap0 : 0 ≤ gap := by have := hvalid idx; omega
      have hglue0 : 0 ≤ glue := glue_nonneg e i hpos
      have hgluee : glue ≤ e := glue_le e i hpos
      have hgmono : glue ≤ glue' := glue_mono e e' i hpos hee
      have hgadd : glue' ≤ glue + (e' - e) := glue_add_bound e e' i hpos hee
      have hextra_mono : extra ≤ extra' := min_le_min hgmono (le_refl gap)
      have hextra_add : extra' ≤ extra + (e' - e) := by
        rw [hextra_def, hextra'_def]
        rcases min_le_iff.mp (le_refl (min glue' gap)) with _ | _ <;> omega
      have hextra0 : 0 ≤ extra := le_min hglue0 hgap0
      have hextrae : extra ≤ e := le_trans (min_le_left _ _) hgluee
      have hextragap : extra ≤ gap := min_le_right _ _
      have hextragap' : extra' ≤ gap := min_le_right _ _
      have he2 : 0 ≤ e - extra := by omega
      have hee2 : e - extra ≤ e' - extra' := by omega
      have hlen2 : (bumpMin s' idx extra').length =
          (bumpMin s idx extra).length := by
        rw [bumpMin_length, bumpMin_length, hlen]
      have hbnat : ∀ (t : List RequestedSize) (x : Int) (j : Nat),
          (getReq (bumpMin t idx x) j).natural_size =
            (getReq t j).natural_size := by
        intro t x j
        by_cases hj : j = idx
        · subst hj
          rcases Nat.lt_or_ge j t.length with hlt | hge
          · rw [getReq_bumpMin_self t j x hlt]
          · rw [bumpMin_oob t j x hge]
        · rw [getReq_bumpMin_ne t idx x j hj]
      have hnat2 : ∀ j, (getReq (bumpMin s' idx extra') j).natural_size =
          (getReq (bumpMin s idx extra) j).natural_size := by
        intro j
        rw [hbnat, hbnat]
        exact hnat j
      have hmin2 : ∀ j, (getReq (bumpMin s idx extra) j).minimum_size ≤
          (getReq (bumpMin s' idx extra') j).minimum_size := by
        intro j
        by_cases hj : j = idx
        · subst hj
          rcases Nat.lt_or_ge j s.length with hlt | hge
          · have hlt' : j < s'.length := by omega
            rw [getReq_bumpMin_self s j extra hlt,
              getReq_bumpMin_self s' j extra' hlt']
            have := heq (i, j) (List.mem_cons_self _ _)
            simp only [] at this ⊢
            omega
          · have hge' : s'.length ≤ j := by omega
            rw [bumpMin_oob s j extra hge, bumpMin_oob s' j extra' hge']
            exact hmin j
        · rw [getReq_bumpMin_ne s idx extra j hj,
            getReq_bumpMin_ne s' idx extra' j hj]
          exact hmin j
      have heq2 : ∀ q ∈ rest,
          (getReq (bumpMin s' idx extra') q.2).minimum_size =
            (getReq (bumpMin s idx extra) q.2).minimum_size := by
        intro q hq
        have hqidx : q.2 ≠ idx := by
          intro hcontra
          exact hidx_rest (hcontra ▸ List.mem_map_of_mem Prod.snd hq)
        rw [getReq_bumpMin_ne s idx extra q.2 hqidx,
          getReq_bumpMin_ne s' idx extra' q.2 hqidx]
        exact heq q (List.mem_cons_of_mem _ hq)
      have hbvalid : ∀ (t : List RequestedSize) (x : Int),
          (∀ j, (getReq t j).minimum_size ≤ (getReq t j).natural_size) →
          x ≤ (getReq t idx).natural_size - (getReq t idx).minimum_size →
          ∀ j, (getReq (bumpMin t idx x) j).minimum_size ≤
            (getReq (bumpMin t idx x) j).natural_size := by
        intro t x hv hx j
        by_cases hj : j = idx
        · subst hj
          rcases Nat.lt_or_ge j t.length with hlt | hge
          · rw [getReq_bumpMin_self t j x hlt]
            simp only []
            omega
          · rw [bumpMin_oob t j x hge]
            exact hv j
        · rw [getReq_bumpMin_ne t idx x j hj]
          exact hv j
      have hvalid2 := hbvalid s extra hvalid (by omega)
      have hvalid2' := hbvalid s' extra' hvalid'
        (by rw [hgapeq]; omega)
      exact ih (e - extra) (e' - extra') (bumpMin s idx extra)
        (bumpMin s' idx extra') hnodup_rest he2 hee2 hlen2 hnat2 hmin2
        heq2 hvalid2 hvalid2'
    · have he0 : e = 0 := by omega
      have hstep : distributeLoop ((i, idx) :: rest) e s = (e, s) := by
        simp only [distributeLoop, if_neg hpos]
      rw [hstep]
      obtain ⟨_, hr0, _, _, hrlo, _, _⟩ :=
        distributeLoop_invariant ((i, idx) :: rest) e' s'
          (le_trans he hee) hvalid'
      constructor
      · omega
      · intro j
        exact le_trans (hmin j) (hrlo j)

/-- Consistency of every entry (`minimum_size ≤ natural_size`) transfers
from list membership to arbitrary `getReq` reads (out-of-range reads give
`⟨0, 0⟩`, which is consistent). -/
theorem valid_of_forall_mem (s : List RequestedSize)
    (h : ∀ r ∈ s, r.minimum_size ≤ r.natural_size) :
    ∀ j, (getReq s j).minimum_size ≤ (getReq s j).natural_size := by
  intro j
  rcases Nat.lt_or_ge j s.length with hj | hj
  · have : getReq s j = s[j] := by
      unfold getReq
      rw [List.getD_eq_getElem?_getD, List.getElem?_eq_getElem hj]
      rfl
    rw [this]
    exact h _ (List.getElem_mem hj)
  · rw [getReq_oob s j hj]

theorem spreading_sorted (sizes : List RequestedSize) :
    List.Sorted (gapBefore sizes) (spreading sizes) :=
  List.sorted_insertionSort _ _

theorem spreading_nodup (sizes : List RequestedSize) :
    (spreading sizes).Nodup :=
  (List.perm_insertionSort (gapBefore sizes)
    (List.range sizes.length)).nodup_iff.mpr (List.nodup_range _)

/-! ## Arithmetic facts about C's truncating division -/

theorem neg_tmod_eq (a b : Int) : (-a).tmod b = -(a.tmod b) := by
  have h1 := Int.tmod_add_tdiv a b
  have h2 := Int.tmod_add_tdiv (-a) b
  rw [Int.neg_tdiv a b, mul_neg] at h2
  omega

theorem tmod_nonpos_of_nonpos (a b : Int) (ha : a ≤ 0) : a.tmod b ≤ 0 := by
  have h1 : (-a).tmod b = -(a.tmod b) := neg_tmod_eq a b
  have h2 : 0 ≤ (-a).tmod b := Int.tmod_nonneg b (by omega)
  omega

theorem tdiv_mono (a a' b : Int) (hb : 0 < b) (h : a ≤ a') :
    a.tdiv b ≤ a'.tdiv b := by
  rcases le_or_lt 0 a with ha | ha
  · rw [Int.tdiv_eq_ediv ha (by omega),
      Int.tdiv_eq_ediv (le_trans ha h) (by omega)]
    exact Int.ediv_le_ediv hb h
  · rcases le_or_lt 0 a' with ha' | ha'
    · have hleft : a.tdiv b ≤ 0 := by
        have h1 : (-a).tdiv b = -(a.tdiv b) := Int.neg_tdiv a b
        have h2 : 0 ≤ (-a).tdiv b := Int.tdiv_nonneg (by omega) (by omega)
        omega
      exact le_trans hleft (Int.tdiv_nonneg ha' (by omega))
    · have h1 : (-a).tdiv b = -(a.tdiv b) := Int.neg_tdiv a b
      have h2 : (-a').tdiv b = -(a'.tdiv b) := Int.neg_tdiv a' b
      have h3 : (-a').tdiv b ≤ (-a).tdiv b := by
        rw [Int.tdiv_eq_ediv (by omega) (by omega),
          Int.tdiv_eq_ediv (by omega) (by omega)]
        exact Int.ediv_le_ediv hb (by omega)
      omega

/-- For a nonnegative dividend, `x / nx` plus the extra unit handed to
position `p` when `p < x % nx` equals a single floor division. -/
theorem tdiv_indicator_eq_ediv (x nx p : Int) (hx : 0 ≤ x) (hnx : 0 < nx)
    (hp0 : 0 ≤ p) (hp : p < nx) :
    x.tdiv nx + (if p < x.tmod nx then 1 else 0) =
      (x + (nx - 1 - p)) / nx := by
  rw [Int.tdiv_eq_ediv hx (by omega), Int.tmod_eq_emod hx (by omega)]
  have hq := Int.ediv_add_emod x nx
  have hr0 : 0 ≤ x % nx := Int.emod_nonneg x (by omega)
  have hrlt : x % nx < nx := Int.emod_lt_of_pos x hnx
  have hrw : x + (nx - 1 - p) =
      (x % nx + nx - 1 - p) + (x / nx) * nx := by
    rw [mul_comm (x / nx) nx]
    omega
  rw [hrw, Int.add_mul_ediv_right _ _ (by omega : nx ≠ 0)]
  by_cases hc : p < x % nx
  · rw [if_pos hc]
    have h2 : (x % nx + nx - 1 - p) / nx = 1 := by
      rw [show x % nx + nx - 1 - p = (x % nx - 1 - p) + 1 * nx by ring,
        Int.add_mul_ediv_right _ _ (by omega : nx ≠ 0),
        Int.ediv_eq_zero_of_lt (by omega) (by omega)]
      omega
    omega
  · rw [if_neg hc]
    have h2 : (x % nx + nx - 1 - p) / nx = 0 :=
      Int.ediv_eq_zero_of_lt (by omega) (by omega)
    omega

/-- The per-position share `x / nx + (1 if p < x % nx)` is monotone in the
space `x` being divided. -/
theorem share_mono (x x' nx p : Int) (hx0 : 0 ≤ x) (hx : x ≤ x')
    (hnx : 0 < nx) (hp0 : 0 ≤ p) (hp : p < nx) :
    x.tdiv nx + (if p < x.tmod nx then 1 else 0) ≤
      x'.tdiv nx + (if p < x'.tmod nx then 1 else 0) := by
  rw [tdiv_indicator_eq_ediv x nx p hx0 hnx hp0 hp,
    tdiv_indicator_eq_ediv x' nx p (le_trans hx0 hx) hnx hp0 hp]
  exact Int.ediv_le_ediv hnx (by omega)

/-- The homogeneous per-position size `a.tdiv n + (1 if p < a.tmod n)` is
monotone when `a` grows by one, for any sign of `a`. -/
theorem homog_share_step_mono (a : Int) (n : Int) (hn : 0 < n)
    (p : Int) (hp0 : 0 ≤ p) (hp : p < n) :
    a.tdiv n + (if p < a.tmod n then 1 else 0) ≤
      (a + 1).tdiv n + (if p < (a + 1).tmod n then 1 else 0) := by
  rcases le_or_lt 0 a with ha | ha
  · exact share_mono a (a + 1) n p ha (by omega) hn hp0 hp
  · have ha1 : a + 1 ≤ 0 := by omega
    have hm1 : a.tmod n ≤ 0 := tmod_nonpos_of_nonpos a n (by omega)
    have hm2 : (a + 1).tmod n ≤ 0 := tmod_nonpos_of_nonpos (a + 1) n ha1
    rw [if_neg (by omega), if_neg (by omega)]
    have := tdiv_mono a (a + 1) n hn (by omega)
    omega

/-! ## Structure of the size-assignment walk -/

theorem assignSizes_homog_step (extra r : Int) (c : ChildSpec) (m : Int)
    (rest : List (ChildSpec × Int)) :
    assignSizes true extra r ((c, m) :: rest) =
      (c, (if 0 < r then extra + 1 else extra), m) ::
        assignSizes true extra (if 0 < r then r - 1 else r) rest := by
  simp [assignSizes]

theorem assignSizes_false_step_expand (extra r : Int) (c : ChildSpec)
    (m : Int) (rest : List (ChildSpec × Int)) (hc : c.expand = true) :
    assignSizes false extra r ((c, m) :: rest) =
      (c, (if 0 < r then m + extra + 1 else m + extra), m) ::
        assignSizes false extra (if 0 < r then r - 1 else r) rest := by
  simp [assignSizes, hc]

theorem assignSizes_false_step_noexpand (extra r : Int) (c : ChildSpec)
    (m : Int) (rest : List (ChildSpec × Int)) (hc : c.expand = false) :
    assignSizes false extra r ((c, m) :: rest) =
      (c, m, m) :: assignSizes false extra r rest := by
  simp [assignSizes, hc]

theorem assignSizes_length (homog : Bool) (extra : Int) (r : Int)
    (l : List (ChildSpec × Int)) :
    (assignSizes homog extra r l).length = l.length := by
  induction l generalizing r with
  | nil => cases homog <;> rfl
  | cons p rest ih =>
    obtain ⟨c, m⟩ := p
    cases homog with
    | true =>
      rw [assignSizes_homog_step]
      simp [ih]
    | false =>
      cases hc : c.expand with
      | true =>
        rw [assignSizes_false_step_expand extra r c m rest hc]
        simp [ih]
      | false =>
        rw [assignSizes_false_step_noexpand extra r c m rest hc]
        simp [ih]

/-- Closed form of the homogeneous walk: the child at walk position `k`
gets `extra`, plus one unit exactly when `k < n_extra`. -/
theorem assignSizes_homog_getD (extra : Int) (r : Int)
    (l : List (ChildSpec × Int)) (k : Nat) (hk : k < l.length) :
    ((assignSizes true extra r l).map (fun t => t.2.1)).getD k 0 =
      extra + (if (k : Int) < r then 1 else 0) := by
  induction l generalizing r k with
  | nil => exact absurd hk (by simp)
  | cons p rest ih =>
    obtain ⟨c, m⟩ := p
    rw [assignSizes_homog_step]
    cases k with
    | zero =>
      by_cases hr : 0 < r
      · simp only [List.map_cons, List.getD_cons_zero, if_pos hr]
        rw [if_pos (by omega)]
      · simp only [List.map_cons, List.getD_cons_zero, if_neg hr]
        rw [if_neg (by omega)]
        omega
    | succ n =>
      have hn : n < rest.length := by simpa using hk
      simp only [List.map_cons, List.getD_cons_succ]
      by_cases hr : 0 < r
      · rw [if_pos hr, ih (r - 1) n hn]
        by_cases hkr : (n : Int) < r - 1
        · rw [if_pos hkr, if_pos (by omega)]
        · rw [if_neg hkr, if_neg (by omega)]
      · rw [if_neg hr, ih r n hn]
        rw [if_neg (by omega), if_neg (by omega)]

/-- Closed form of the non-homogeneous walk: the child at walk position
`k` gets its (distributed) minimum; if it expands it further gets `extra`
plus one unit exactly when fewer than `n_extra` expanding children precede
it in walk order. -/
theorem assignSizes_false_getD (extra : Int) (r : Int)
    (l : List (ChildSpec × Int)) (k : Nat) (hk : k < l.length) :
    ((assignSizes false extra r l).map (fun t => t.2.1)).getD k 0 =
      (l.map (fun p => p.2)).getD k 0 +
        (if (l.map (fun p => p.1.expand)).getD k false then
          extra + (if (((l.take k).countP (fun p => p.1.expand) : Int)) < r
            then 1 else 0)
         else 0) := by
  induction l generalizing r k with
  | nil => exact absurd hk (by simp)
  | cons p rest ih =>
    obtain ⟨c, m⟩ := p
    cases hc : c.expand with
    | true =>
      rw [assignSizes_false_step_expand extra r c m rest hc]
      cases k with
      | zero =>
        simp only [List.map_cons, List.getD_cons_zero, List.take_zero,
          List.countP_nil, hc, if_pos]
        by_cases hr : 0 < r
        · rw [if_pos hr, if_pos (by omega)]
          ring
        · rw [if_neg hr, if_neg (by omega)]
          ring
      | succ n =>
        have hn : n < rest.length := by simpa using hk
        have hcnt : (((c, m) :: rest).take (n + 1)).countP
            (fun p => p.1.expand) =
            (rest.take n).countP (fun p => p.1.expand) + 1 := by
          simp [List.countP_cons, hc]
        simp only [List.map_cons, List.getD_cons_succ, hcnt]
        by_cases hr : 0 < r
        · rw [if_pos hr, ih (r - 1) n hn]
          by_cases hexp : (rest.map (fun p => p.1.expand)).getD n false
          · rw [if_pos hexp, if_pos hexp]
            by_cases hcr : ((rest.take n).countP (fun p => p.1.expand) : Int)
                < r - 1
            · rw [if_pos hcr, if_pos (by omega)]
            · rw [if_neg hcr, if_neg (by omega)]
          · rw [if_neg hexp, if_neg hexp]
        · rw [if_neg hr, ih r n hn]
          by_cases hexp : (rest.map (fun p => p.1.expand)).getD n false
          · rw [if_pos hexp, if_pos hexp]
            rw [if_neg (by omega), if_neg (by omega)]
          · rw [if_neg hexp, if_neg hexp]
    | false =>
      rw [assignSizes_false_step_noexpand extra r c m rest hc]
      cases k with
      | zero =>
        simp only [List.map_cons, List.getD_cons_zero, hc]
        simp
      | succ n =>
        have hn : n < rest.length := by simpa using hk
        have hcnt : (((c, m) :: rest).take (n + 1)).countP
            (fun p => p.1.expand) =
            (rest.take n).countP (fun p => p.1.expand) := by
          simp [List.countP_cons, hc]
        simp only [List.map_cons, List.getD_cons_succ, hcnt]
        exact ih r n hn

/-- Total of the non-homogeneous walk: the distributed minimums, plus
`extra` for each expanding child, plus one unit for `min n_extra
(expand count)` of them. -/
theorem assignSizes_false_sum (extra : Int) (r : Int) (hr : 0 ≤ r)
    (l : List (ChildSpec × Int)) :
    ((assignSizes false extra r l).map (fun t => t.2.1)).sum =
      (l.map (fun p => p.2)).sum +
        (l.countP (fun p => p.1.expand) : Int) * extra +
        min r (l.countP (fun p => p.1.expand) : Int) := by
  induction l generalizing r with
  | nil =>
    simp [assignSizes]
    omega
  | cons p rest ih =>
    obtain ⟨c, m⟩ := p
    cases hc : c.expand with
    | true =>
      rw [assignSizes_false_step_expand extra r c m rest hc]
      have hcnt : (((c, m) :: rest)).countP (fun p => p.1.expand) =
          rest.countP (fun p => p.1.expand) + 1 := by
        simp [List.countP_cons, hc]
      simp only [List.map_cons, List.sum_cons, hcnt]
      by_cases hr' : 0 < r
      · simp only [if_pos hr']
        rw [ih (r - 1) (by omega)]
        push_cast
        ring_nf
        omega
      · simp only [if_neg hr']
        rw [ih r hr]
        push_cast
        ring_nf
        omega
    | false =>
      rw [assignSizes_false_step_noexpand extra r c m rest hc]
      have hcnt : (((c, m) :: rest)).countP (fun p => p.1.expand) =
          rest.countP (fun p => p.1.expand) := by
        simp [List.countP_cons, hc]
      simp only [List.map_cons, List.sum_cons, hcnt]
      rw [ih r hr]
      omega

/-! ## Bridging lemmas between the pass and its components -/

/-- `distribute_natural_allocation` inherits the loop invariant when
called with nonnegative `extra_space`. -/
theorem distribute_invariant (e : Int) (s : List RequestedSize) (he : 0 ≤ e)
    (hvalid : ∀ j, (getReq s j).minimum_size ≤ (getReq s j).natural_size) :
    (distribute_natural_allocation e s).2.length = s.length ∧
    0 ≤ (distribute_natural_allocation e s).1 ∧
    (distribute_natural_allocation e s).1 ≤ e ∧
    (∀ j, (getReq (distribute_natural_allocation e s).2 j).natural_size =
      (getReq s j).natural_size) ∧
    (∀ j, (getReq s j).minimum_size ≤
      (getReq (distribute_natural_allocation e s).2 j).minimum_size) ∧
    (∀ j, (getReq (distribute_natural_allocation e s).2 j).minimum_size ≤
      (getReq s j).natural_size) ∧
    sumMins (distribute_natural_allocation e s).2 +
      (distribute_natural_allocation e s).1 = sumMins s + e := by
  have hne : ¬ e < 0 := not_lt.mpr he
  unfold distribute_natural_allocation
  rw [if_neg hne]
  exact distributeLoop_invariant _ e s he hvalid

theorem zip_countP_expand (a : List ChildSpec) (b : List Int)
    (h : a.length ≤ b.length) :
    (a.zip b).countP (fun p => p.1.expand) = a.countP (·.expand) := by
  induction a generalizing b with
  | nil => simp
  | cons c t ih =>
    cases b with
    | nil => simp at h
    | cons x bt =>
      simp only [List.zip_cons_cons, List.countP_cons]
      rw [ih bt (by simpa using h)]

theorem zip_map_snd_sum (a : List ChildSpec) (b : List Int)
    (h : b.length ≤ a.length) :
    ((a.zip b).map (fun p => p.2)).sum = b.sum := by
  rw [show (fun (p : ChildSpec × Int) => p.2) = Prod.snd from rfl,
    List.map_snd_zip a b h]

theorem sumMins_map_toRequest (children : List ChildSpec) :
    sumMins (children.map toRequest) =
      (children.map (·.minimum_size)).sum := by
  unfold sumMins
  rw [List.map_map]
  rfl

/-- Unfolding of `sizedChildren` in the non-homogeneous branch. -/
theorem sizedChildren_eq_false (cfg : LayoutConfig)
    (children : List ChildSpec) (ext : Int)
    (hh : cfg.is_homogeneous = false) :
    sizedChildren cfg children ext =
      assignSizes false
        (if 0 < countExpand children then
          (distribute_natural_allocation
            (max 0 (ext - ((children.length : Int) - 1) * cfg.spacing -
              (children.map (·.minimum_size)).sum))
            (children.map toRequest)).1.tdiv (countExpand children : Int)
         else 0)
        (if 0 < countExpand children then
          (distribute_natural_allocation
            (max 0 (ext - ((children.length : Int) - 1) * cfg.spacing -
              (children.map (·.minimum_size)).sum))
            (children.map toRequest)).1.tmod (countExpand children : Int)
         else 0)
        (children.reverse.zip
          (((distribute_natural_allocation
            (max 0 (ext - ((children.length : Int) - 1) * cfg.spacing -
              (children.map (·.minimum_size)).sum))
            (children.map toRequest)).2.map (·.minimum_size)).reverse)) := by
  simp [sizedChildren, hh]

/-- Unfolding of `sizedChildren` in the homogeneous branch. -/
theorem sizedChildren_eq_homog (cfg : LayoutConfig)
    (children : List ChildSpec) (ext : Int)
    (hh : cfg.is_homogeneous = true) :
    sizedChildren cfg children ext =
      assignSizes true
        ((ext - ((children.length : Int) - 1) * cfg.spacing).tdiv
          (children.length : Int))
        ((ext - ((children.length : Int) - 1) * cfg.spacing).tmod
          (children.length : Int))
        (children.reverse.zip (children.map (·.minimum_size)).reverse) := by
  simp [sizedChildren, hh]

/-! ## Claim theorems: the gap distributor -/

/-- Claim C8: calling the gap distributor with negative `extra_space` is a
contract violation that fails fast (`g_return_val_if_fail (extra_space >= 0, 0)`
emits the diagnostic and returns `0` at once): no distribution step runs
and the request array is returned untouched. -/
theorem distribute_negative_extra_space_noop (e : Int)
    (sizes : List RequestedSize) (h : e < 0) :
    distribute_natural_allocation e sizes = (0, sizes) := by
  unfold distribute_natural_allocation
  rw [if_pos h]

/-- Witness for `distribute_negative_extra_space_noop` at `e = -1`. -/
theorem distribute_negative_extra_space_noop_witness :
    distribute_natural_allocation (-1) [⟨3, 5⟩] = (0, [⟨3, 5⟩]) :=
  distribute_negative_extra_space_noop (-1) [⟨3, 5⟩] (by decide)

/-- Claim C1, counterexample: the loop does NOT iterate from the
largest-gap item to the smallest.  On requests with gaps `[10, 1]` and
`extra_space = 4` the code (which walks the descending-sorted array from
its tail, smallest gap first) produces minimums `[3, 1]` and leftover `0`,
while the claimed largest-first iteration would produce `[2, 1]` and
leftover `1`. -/
theorem distribute_differs_from_largest_first :
    distribute_natural_allocation 4 [⟨0, 10⟩, ⟨0, 1⟩] ≠
      distributeSpecLargestFirst 4 [⟨0, 10⟩, ⟨0, 1⟩] := by decide

/-- Claim C1 (amended): the gap distributor sorts an index array
descending by `(gap, index)` and iterates from the smallest-gap item to
the largest (consuming the sorted array from its end), at each step with
`i` items remaining computing `share = floor((extra_space + i) / (i + 1))`
and adding `min(share, gap)`; consequently, for consistent requests and
nonnegative `extra_space`, the total amount added never exceeds the
initial `extra_space` and no request's minimum is raised above its own
natural size. -/
theorem distribute_direction_and_bounds (e : Int) (s : List RequestedSize)
    (he : 0 ≤ e)
    (hs : ∀ r ∈ s, 0 ≤ r.minimum_size ∧ r.minimum_size ≤ r.natural_size) :
    distribute_natural_allocation e s =
      distributeLoop (spreading s).enum.reverse e s ∧
    sumMins (distribute_natural_allocation e s).2 - sumMins s ≤ e ∧
    (∀ j, (getReq s j).minimum_size ≤
        (getReq (distribute_natural_allocation e s).2 j).minimum_size ∧
      (getReq (distribute_natural_allocation e s).2 j).minimum_size ≤
        (getReq s j).natural_size) := by
  have hvalid := valid_of_forall_mem s (fun r hr => (hs r hr).2)
  have hne : ¬ e < 0 := not_lt.mpr he
  have heq : distribute_natural_allocation e s =
      distributeLoop (spreading s).enum.reverse e s := by
    unfold distribute_natural_allocation
    rw [if_neg hne]
  obtain ⟨hlen, h0, hle, hnat, hlo, hhi, hsum⟩ :=
    distributeLoop_invariant (spreading s).enum.reverse e s he hvalid
  refine ⟨heq, ?_, ?_⟩
  · rw [heq]; omega
  · intro j
    rw [heq]
    exact ⟨hlo j, hhi j⟩

/-- Witness for `distribute_direction_and_bounds` with
`extra_space = 3` and one request `⟨0, 2⟩`. -/
theorem distribute_direction_and_bounds_witness :
    distribute_natural_allocation 3 [⟨0, 2⟩] =
      distributeLoop (spreading [⟨0, 2⟩]).enum.reverse 3 [⟨0, 2⟩] ∧
    sumMins (distribute_natural_allocation 3 [⟨0, 2⟩]).2 -
      sumMins [⟨0, 2⟩] ≤ 3 ∧
    (∀ j, (getReq [⟨0, 2⟩] j).minimum_size ≤
        (getReq (distribute_natural_allocation 3 [⟨0, 2⟩]).2 j).minimum_size ∧
      (getReq (distribute_natural_allocation 3 [⟨0, 2⟩]).2 j).minimum_size ≤
        (getReq [⟨0, 2⟩] j).natural_size) :=
  distribute_direction_and_bounds 3 [⟨0, 2⟩] (by decide) (by decide)

/-- Claim C5, counterexample: the distributor does not visit the requests
in descending `(gap, index)` order.  With gaps `[5, 1]` the request with
the strictly larger gap is visited second, not first: the first-visited
request has a strictly smaller gap than the second-visited one. -/
theorem processing_order_not_descending :
    ¬ (clampedGap [⟨0, 5⟩, ⟨0, 1⟩]
        ((processingOrder [⟨0, 5⟩, ⟨0, 1⟩]).getD 1 0) ≤
      clampedGap [⟨0, 5⟩, ⟨0, 1⟩]
        ((processingOrder [⟨0, 5⟩, ⟨0, 1⟩]).getD 0 0)) := by decide

/-- Claim C5 (amended): the distribution loop visits the requests in
strictly ascending lexicographic order of `(gap, original_index)`: a
request with a strictly smaller gap is processed first, and on exactly
equal gaps the lower original index is processed first (equivalently, the
index array is sorted descending by `(gap, index)` and consumed from its
end). -/
theorem processing_order_ascending (sizes : List RequestedSize)
    (p q : Nat) (hpq : p < q) (hq : q < (processingOrder sizes).length) :
    clampedGap sizes ((processingOrder sizes).getD p 0) <
        clampedGap sizes ((processingOrder sizes).getD q 0) ∨
      (clampedGap sizes ((processingOrder sizes).getD p 0) =
          clampedGap sizes ((processingOrder sizes).getD q 0) ∧
        (processingOrder sizes).getD p 0 <
          (processingOrder sizes).getD q 0) := by
  have hp : p < (processingOrder sizes).length := lt_trans hpq hq
  have hpair : (processingOrder sizes).Pairwise
      (fun a b => gapBefore sizes b a) := by
    unfold processingOrder
    exact (List.pairwise_reverse).mpr (spreading_sorted sizes)
  have hnodup : (processingOrder sizes).Nodup := by
    unfold processingOrder
    exact (List.nodup_reverse).mpr (spreading_nodup sizes)
  have hrel := (List.pairwise_iff_getElem.mp hpair) p q hp hq hpq
  have hne : (processingOrder sizes)[p] ≠ (processingOrder sizes)[q] :=
    (List.pairwise_iff_getElem.mp hnodup) p q hp hq hpq
  rw [List.getD_eq_getElem _ _ hp, List.getD_eq_getElem _ _ hq]
  rcases hrel with hlt | ⟨heq, hle⟩
  · exact Or.inl hlt
  · exact Or.inr ⟨heq.symm, lt_of_le_of_ne hle hne⟩

/-- Witness for `processing_order_ascending` on requests with gaps
`[5, 1]` at positions `0 < 1`. -/
theorem processing_order_ascending_witness :
    clampedGap [⟨0, 5⟩, ⟨0, 1⟩]
        ((processingOrder [⟨0, 5⟩, ⟨0, 1⟩]).getD 0 0) <
      clampedGap [⟨0, 5⟩, ⟨0, 1⟩]
        ((processingOrder [⟨0, 5⟩, ⟨0, 1⟩]).getD 1 0) ∨
    (clampedGap [⟨0, 5⟩, ⟨0, 1⟩]
        ((processingOrder [⟨0, 5⟩, ⟨0, 1⟩]).getD 0 0) =
      clampedGap [⟨0, 5⟩, ⟨0, 1⟩]
        ((processingOrder [⟨0, 5⟩, ⟨0, 1⟩]).getD 1 0) ∧
      (processingOrder [⟨0, 5⟩, ⟨0, 1⟩]).getD 0 0 <
        (processingOrder [⟨0, 5⟩, ⟨0, 1⟩]).getD 1 0) :=
  processing_order_ascending [⟨0, 5⟩, ⟨0, 1⟩] 0 1 (by decide) (by decide)

/-! ## Claim theorems: the allocation pass -/

/-- Claim C2, counterexample: without any `expand`-marked child the
leftover space beyond the natural sizes stays unallocated.  One visible
child with `minimum = natural = 0`, spacing `0`, `primary_extent = 10`
satisfies the claim's hypothesis (`10 ≥ 0 + 0`), yet the allocated sizes
sum to `0`, not `10`. -/
theorem nonhomogeneous_sum_counterexample :
    (boxChildSizes ⟨false, false, true, 0, false⟩
        [⟨0, 0, false, true, true⟩] 10).sum +
      (0 : Int) * ((1 : Int) - 1) ≠ 10 := by decide

/-- Claim C2 (amended): for a non-homogeneous allocation over visible
children with consistent size reports, at least one child marked `expand`,
and `primary_extent ≥ sum(minimum_sizes) + spacing*(n-1)`, the allocated
child sizes satisfy `sum(allocated_sizes) + spacing*(n-1) = primary_extent`
(the distributor raises minimums toward natural sizes, and all leftover
slack is divided among the expand children by floor-division, the
remainder units going to the first expand children in allocation
order). -/
theorem nonhomogeneous_sizes_fill_extent (cfg : LayoutConfig)
    (children : List ChildSpec) (ext : Int)
    (hh : cfg.is_homogeneous = false)
    (hch : ∀ c ∈ children,
      0 ≤ c.minimum_size ∧ c.minimum_size ≤ c.natural_size)
    (hexp : 0 < countExpand children)
    (hfit : (children.map (·.minimum_size)).sum +
      cfg.spacing * ((children.length : Int) - 1) ≤ ext) :
    (boxChildSizes cfg children ext).sum +
      cfg.spacing * ((children.length : Int) - 1) = ext := by
  have hcomm : cfg.spacing * ((children.length : Int) - 1) =
      ((children.length : Int) - 1) * cfg.spacing := mul_comm _ _
  set n := children.length with hn
  set slack := ext - ((n : Int) - 1) * cfg.spacing -
    (children.map (·.minimum_size)).sum with hslack_def
  have hslack : 0 ≤ slack := by omega
  have hmax : max 0 slack = slack := max_eq_right hslack
  set req := children.map toRequest with hreq
  have hreqvalid : ∀ j, (getReq req j).minimum_size ≤
      (getReq req j).natural_size := by
    apply valid_of_forall_mem
    intro r hr
    obtain ⟨c, hc, hrc⟩ := List.mem_map.mp hr
    rw [← hrc]
    exact (hch c hc).2
  obtain ⟨hlen, h0, hle, hnat, hlo, hhi, hsum⟩ :=
    distribute_invariant (max 0 slack) req (le_max_left _ _) hreqvalid
  set res := distribute_natural_allocation (max 0 slack) req with hres
  have hlenms : ((res.2.map (·.minimum_size)).reverse).length = n := by
    simp only [List.length_reverse, List.length_map]
    rw [hlen, hreq, List.length_map]
  have hnx : (0 : Int) < (countExpand children : Int) := by
    exact_mod_cast hexp
  have hunf := sizedChildren_eq_false cfg children ext hh
  rw [if_pos hexp, if_pos hexp] at hunf
  have hbox : boxChildSizes cfg children ext =
      (assignSizes false
        (res.1.tdiv (countExpand children : Int))
        (res.1.tmod (countExpand children : Int))
        (children.reverse.zip ((res.2.map (·.minimum_size)).reverse))).map
          (fun t => t.2.1) := by
    unfold boxChildSizes
    rw [hunf]
  have hr0 : 0 ≤ res.1.tmod (countExpand children : Int) :=
    Int.tmod_nonneg _ h0
  have hsum2 := assignSizes_false_sum
    (res.1.tdiv (countExpand children : Int))
    (res.1.tmod (countExpand children : Int)) hr0
    (children.reverse.zip ((res.2.map (·.minimum_size)).reverse))
  have hcnt : (children.reverse.zip
      ((res.2.map (·.minimum_size)).reverse)).countP
        (fun p => p.1.expand) = countExpand children := by
    rw [zip_countP_expand _ _ (by rw [hlenms, List.length_reverse])]
    rw [List.countP_reverse]
    rfl
  have hsnd : ((children.reverse.zip
      ((res.2.map (·.minimum_size)).reverse)).map (fun p => p.2)).sum =
      sumMins res.2 := by
    rw [zip_map_snd_sum _ _ (by rw [hlenms, List.length_reverse]),
      List.sum_reverse]
    rfl
  rw [hbox, hsum2, hcnt, hsnd]
  have hdm := Int.tmod_add_tdiv res.1 (countExpand children : Int)
  have hmodlt : res.1.tmod (countExpand children : Int) <
      (countExpand children : Int) := Int.tmod_lt_of_pos res.1 hnx
  have hminr : min (res.1.tmod (countExpand children : Int))
      ((countExpand children : Int)) =
      res.1.tmod (countExpand children : Int) := min_eq_left (by omega)
  rw [hminr]
  have hsummins : sumMins req = (children.map (·.minimum_size)).sum :=
    sumMins_map_toRequest children
  rw [hmax] at hsum
  -- sumMins res.2 + cnt * tdiv + tmod = sumMins res.2 + res.1
  --   = sumMins req + slack
  have hmul : (countExpand children : Int) *
        (res.1.tdiv (countExpand children : Int)) +
      res.1.tmod (countExpand children : Int) = res.1 := by omega
  omega

/-- Witness for `nonhomogeneous_sizes_fill_extent`: minimums `[10, 20]`,
naturals `[10, 30]`, the first child expands, spacing `5`,
`primary_extent = 100`. -/
theorem nonhomogeneous_sizes_fill_extent_witness :
    (boxChildSizes ⟨false, false, true, 5, false⟩
        [⟨10, 10, true, true, true⟩, ⟨20, 30, false, true, true⟩] 100).sum +
      (5 : Int) * ((2 : Int) - 1) = 100 :=
  nonhomogeneous_sizes_fill_extent ⟨false, false, true, 5, false⟩
    [⟨10, 10, true, true, true⟩, ⟨20, 30, false, true, true⟩] 100
    rfl (by decide) (by decide) (by decide)

/-- Claim C4, counterexample: for negative `available` the C code's
truncating `gint` division differs from the claimed floor division.  Two
visible children, `primary_extent = 2`, `spacing = 5` give
`available = -3`: the code assigns both children `-3 tdiv 2 = -1` (and the
negative remainder hands out no extra units), while the claim predicts the
second child gets `floor(-3/2) = -2`. -/
theorem homogeneous_floor_counterexample :
    (boxChildSizes ⟨false, true, true, 5, false⟩
        [⟨0, 0, false, true, true⟩, ⟨0, 0, false, true, true⟩] 2).getD 1 0 ≠
      ((2 : Int) - ((2 : Int) - 1) * 5) / 2 +
        (if ((1 : Nat) : Int) < ((2 : Int) - ((2 : Int) - 1) * 5) % 2
          then 1 else 0) := by decide

/-- Claim C4 (amended): in homogeneous mode with `n ≥ 1` visible children
and `available = primary_extent - spacing*(n-1)`, natural sizes and the
expand policy are ignored; PROVIDED `available ≥ 0`, the child at
allocation-order position `k` receives `floor(available / n)` plus one
extra unit exactly when `k < available mod n` (so the first
`available mod n` children in allocation order get the extra unit); and
for any `available` the allocated sizes of any two children differ by at
most `1`. -/
theorem homogeneous_sizes (cfg : LayoutConfig) (children : List ChildSpec)
    (ext : Int) (hh : cfg.is_homogeneous = true) (hne : children ≠ []) :
    (0 ≤ ext - ((children.length : Int) - 1) * cfg.spacing →
      ∀ k < children.length,
        (boxChildSizes cfg children ext).getD k 0 =
          (ext - ((children.length : Int) - 1) * cfg.spacing) /
              (children.length : Int) +
            (if (k : Int) < (ext - ((children.length : Int) - 1) *
                cfg.spacing) % (children.length : Int)
              then 1 else 0)) ∧
    (∀ j < children.length, ∀ k < children.length,
      (boxChildSizes cfg children ext).getD j 0 -
        (boxChildSizes cfg children ext).getD k 0 ≤ 1) := by
  have hn0 : 0 < children.length := List.length_pos.mpr hne
  set avail := ext - ((children.length : Int) - 1) * cfg.spacing
    with havail_def
  have hbox : boxChildSizes cfg children ext =
      (assignSizes true (avail.tdiv (children.length : Int))
        (avail.tmod (children.length : Int))
        (children.reverse.zip (children.map (·.minimum_size)).reverse)).map
          (fun t => t.2.1) := by
    unfold boxChildSizes
    rw [sizedChildren_eq_homog cfg children ext hh]
  have hplen : (children.reverse.zip
      (children.map (·.minimum_size)).reverse).length = children.length := by
    rw [List.length_zip, List.length_reverse, List.length_reverse,
      List.length_map]
    omega
  have hform : ∀ k < children.length,
      (boxChildSizes cfg children ext).getD k 0 =
        avail.tdiv (children.length : Int) +
          (if (k : Int) < avail.tmod (children.length : Int)
            then 1 else 0) := by
    intro k hk
    rw [hbox]
    exact assignSizes_homog_getD _ _ _ k (by omega)
  constructor
  · intro havail k hk
    rw [hform k hk,
      Int.tdiv_eq_ediv havail (by exact_mod_cast Nat.zero_le _),
      Int.tmod_eq_emod havail (by exact_mod_cast Nat.zero_le _)]
  · intro j hj k hk
    rw [hform j hj, hform k hk]
    by_cases h1 : (j : Int) < avail.tmod (children.length : Int) <;>
      by_cases h2 : (k : Int) < avail.tmod (children.length : Int) <;>
        simp [h1, h2]

/-- Witness for `homogeneous_sizes`: three children, `primary_extent =
100`, `spacing = 10` (`available = 80`, base `26`, remainder `2`); the
first child in allocation order gets `27`. -/
theorem homogeneous_sizes_witness :
    (boxChildSizes ⟨false, true, true, 10, false⟩
        [⟨0, 0, false, true, true⟩, ⟨0, 0, false, true, true⟩,
          ⟨0, 0, false, true, true⟩] 100).getD 0 0 =
      ((100 : Int) - ((3 : Int) - 1) * 10) / 3 +
        (if ((0 : Nat) : Int) < ((100 : Int) - ((3 : Int) - 1) * 10) % 3
          then 1 else 0) :=
  (homogeneous_sizes ⟨false, true, true, 10, false⟩
    [⟨0, 0, false, true, true⟩, ⟨0, 0, false, true, true⟩,
      ⟨0, 0, false, true, true⟩] 100 rfl (by decide)).1 (by decide)
    0 (by decide)

/-- Claim C9: if any visible child reports an inconsistent preferred size
(`minimum < 0` or `natural < minimum`), the allocation pass treats it as a
fatal contract violation (`g_error`): no clamping happens and no
allocation is produced. -/
theorem allocate_inconsistent_child_fails (cfg : LayoutConfig)
    (children : List ChildSpec) (box : ActorBox)
    (h : ∃ c ∈ children,
      c.minimum_size < 0 ∨ c.natural_size < c.minimum_size) :
    clutter_box_layout_allocate cfg children box = none := by
  obtain ⟨c, hc, hbad⟩ := h
  unfold clutter_box_layout_allocate
  have hne : ¬ children.isEmpty := by
    cases children with
    | nil => simp at hc
    | cons a t => simp
  rw [if_neg hne, if_neg]
  intro hall
  have := hall c hc
  omega

/-- Witness for `allocate_inconsistent_child_fails`: a child reporting
`natural = 5 < minimum = 10`. -/
theorem allocate_inconsistent_child_fails_witness :
    clutter_box_layout_allocate ⟨false, false, true, 5, false⟩
      [⟨10, 5, false, true, true⟩] ⟨0, 0, 100, 40⟩ = none :=
  allocate_inconsistent_child_fails ⟨false, false, true, 5, false⟩
    [⟨10, 5, false, true, true⟩] ⟨0, 0, 100, 40⟩ (by decide)

theorem vWalk_length (spacing : Int) (ps : Bool) (W : Int) (y : Int)
    (l : List (ChildSpec × Int × Int)) :
    (vWalk spacing ps W y l).length = l.length := by
  induction l generalizing y with
  | nil => rfl
  | cons t rest ih =>
    obtain ⟨c, cs, m⟩ := t
    by_cases hps : ps
    · simp only [vWalk, if_pos hps, List.length_cons, ih]
    · simp only [vWalk, if_neg hps, List.length_cons, ih]

theorem hWalk_length (spacing : Int) (ps rtl : Bool) (W H : Int) (x : Int)
    (l : List (ChildSpec × Int × Int)) :
    (hWalk spacing ps rtl W H x l).length = l.length := by
  induction l generalizing x with
  | nil => rfl
  | cons t rest ih =>
    obtain ⟨c, cs, m⟩ := t
    simp only [hWalk, List.length_cons, ih]

/-- Spans of the rectangles produced by the vertical walk: every child's
cross span is `max 1 W`, and a `y_fill` child's primary span is
`max 1 child_size`. -/
theorem vWalk_spans (spacing : Int) (ps : Bool) (W : Int) (y : Int)
    (l : List (ChildSpec × Int × Int)) (k : Nat) (hk : k < l.length) :
    ((vWalk spacing ps W y l).getD k ⟨0, 0, 0, 0⟩).x2 -
        ((vWalk spacing ps W y l).getD k ⟨0, 0, 0, 0⟩).x1 = max 1 W ∧
    ((l.getD k (⟨0, 0, false, false, false⟩, 0, 0)).1.y_fill = true →
      ((vWalk spacing ps W y l).getD k ⟨0, 0, 0, 0⟩).y2 -
        ((vWalk spacing ps W y l).getD k ⟨0, 0, 0, 0⟩).y1 =
        max 1 (l.getD k (⟨0, 0, false, false, false⟩, 0, 0)).2.1) := by
  induction l generalizing y k with
  | nil => exact absurd hk (by simp)
  | cons t rest ih =>
    obtain ⟨c, cs, m⟩ := t
    by_cases hps : ps
    · simp only [vWalk, if_pos hps]
      cases k with
      | zero =>
        simp only [List.getD_cons_zero]
        refine ⟨by omega, fun hf => ?_⟩
        rw [if_pos hf, if_pos hf]
        omega
      | succ n =>
        simp only [List.getD_cons_succ]
        exact ih (y + cs + spacing) n (by simpa using hk)
    · simp only [vWalk, if_neg hps]
      cases k with
      | zero =>
        simp only [List.getD_cons_zero]
        refine ⟨by omega, fun hf => ?_⟩
        rw [if_pos hf, if_pos hf]
        omega
      | succ n =>
        simp only [List.getD_cons_succ]
        exact ih (y - (cs + spacing)) n (by simpa using hk)

/-- Spans of the rectangles produced by the horizontal walk: every
child's cross span is `max 1 H`, and an `x_fill` child's primary span is
`max 1 child_size` (the pack-end shift and the RTL mirroring both preserve
span widths). -/
theorem hWalk_spans (spacing : Int) (ps rtl : Bool) (W H : Int) (x : Int)
    (l : List (ChildSpec × Int × Int)) (k : Nat) (hk : k < l.length) :
    ((hWalk spacing ps rtl W H x l).getD k ⟨0, 0, 0, 0⟩).y2 -
        ((hWalk spacing ps rtl W H x l).getD k ⟨0, 0, 0, 0⟩).y1 =
        max 1 H ∧
    ((l.getD k (⟨0, 0, false, false, false⟩, 0, 0)).1.x_fill = true →
      ((hWalk spacing ps rtl W H x l).getD k ⟨0, 0, 0, 0⟩).x2 -
        ((hWalk spacing ps rtl W H x l).getD k ⟨0, 0, 0, 0⟩).x1 =
        max 1 (l.getD k (⟨0, 0, false, false, false⟩, 0, 0)).2.1) := by
  induction l generalizing x k with
  | nil => exact absurd hk (by simp)
  | cons t rest ih =>
    obtain ⟨c, cs, m⟩ := t
    simp only [hWalk]
    cases k with
    | zero =>
      simp only [List.getD_cons_zero]
      refine ⟨by omega, fun hf => ?_⟩
      simp only [if_pos hf]
      cases ps <;> cases rtl <;> simp
    | succ n =>
      simp only [List.getD_cons_succ]
      exact ih _ n (by simpa using hk)

/-- Claim C10: every allocated rectangle hands the child a cross-axis
extent of exactly `max 1 (box cross extent)`, and a child whose fill flag
is set on the primary axis gets a primary-axis span of exactly
`max 1 child_size` — at least one unit even when `child_size` is zero or
negative. -/
theorem allocate_spans_clamped (cfg : LayoutConfig)
    (children : List ChildSpec) (box : ActorBox) (bs : List ActorBox)
    (h : clutter_box_layout_allocate cfg children box = some bs) :
    ∀ k, k < bs.length →
      crossSpan cfg (bs.getD k ⟨0, 0, 0, 0⟩) =
        max 1 (crossExtent cfg box) ∧
      (primaryFill cfg ((sizedChildren cfg children
          (primaryExtent cfg box)).getD k
            (⟨0, 0, false, false, false⟩, 0, 0)).1 = true →
        primarySpan cfg (bs.getD k ⟨0, 0, 0, 0⟩) =
          max 1 ((boxChildSizes cfg children
            (primaryExtent cfg box)).getD k 0)) := by
  intro k hk
  unfold clutter_box_layout_allocate at h
  by_cases hemp : children.isEmpty
  · rw [if_pos hemp] at h
    have : bs = [] := by
      cases h
      rfl
    subst this
    simp at hk
  · rw [if_neg hemp] at h
    by_cases hok : ∀ c ∈ children,
        0 ≤ c.minimum_size ∧ c.minimum_size ≤ c.natural_size
    · rw [if_pos hok] at h
      have hsizes : (boxChildSizes cfg children
          (primaryExtent cfg box)).getD k 0 =
          ((sizedChildren cfg children (primaryExtent cfg box)).getD k
            (⟨0, 0, false, false, false⟩, 0, 0)).2.1 := by
        unfold boxChildSizes
        exact List.getD_map
          (sizedChildren cfg children (primaryExtent cfg box))
          (⟨0, 0, false, false, false⟩, 0, 0) (fun t => t.2.1)
      by_cases hv : cfg.is_vertical
      · rw [if_pos hv] at h
        cases h
        have hkl : k < (sizedChildren cfg children
            (primaryExtent cfg box)).length := by
          rw [← vWalk_length cfg.spacing cfg.is_pack_start
            (box.x2 - box.x1)
            (if cfg.is_pack_start then 0 else box.y2 - box.y1) _]
          exact hk
        obtain ⟨hcross, hfill⟩ := vWalk_spans cfg.spacing
          cfg.is_pack_start (box.x2 - box.x1)
          (if cfg.is_pack_start then 0 else box.y2 - box.y1)
          (sizedChildren cfg children (primaryExtent cfg box)) k hkl
        refine ⟨?_, ?_⟩
        · unfold crossSpan crossExtent
          rw [if_pos hv, if_pos hv]
          exact hcross
        · intro hf
          unfold primarySpan
          rw [if_pos hv, hsizes]
          apply hfill
          unfold primaryFill at hf
          rw [if_pos hv] at hf
          exact hf
      · rw [if_neg hv] at h
        cases h
        have hkl : k < (sizedChildren cfg children
            (primaryExtent cfg box)).length := by
          rw [← hWalk_length cfg.spacing cfg.is_pack_start cfg.is_rtl
            (box.x2 - box.x1) (box.y2 - box.y1)
            (if cfg.is_pack_start then 0 else box.x2 - box.x1) _]
          exact hk
        obtain ⟨hcross, hfill⟩ := hWalk_spans cfg.spacing
          cfg.is_pack_start cfg.is_rtl (box.x2 - box.x1)
          (box.y2 - box.y1)
          (if cfg.is_pack_start then 0 else box.x2 - box.x1)
          (sizedChildren cfg children (primaryExtent cfg box)) k hkl
        refine ⟨?_, ?_⟩
        · unfold crossSpan crossExtent
          rw [if_neg hv, if_neg hv]
          exact hcross
        · intro hf
          unfold primarySpan
          rw [if_neg hv, hsizes]
          apply hfill
          unfold primaryFill at hf
          rw [if_neg hv] at hf
          exact hf
    · rw [if_neg hok] at h
      cases h

/-- Witness for `allocate_spans_clamped`: one filling child of natural
size `0` in a `100 × 40` box still receives a `1`-unit primary span and
the full (clamped) cross extent. -/
theorem allocate_spans_clamped_witness :
    crossSpan ⟨false, false, true, 5, false⟩
        (((clutter_box_layout_allocate ⟨false, false, true, 5, false⟩
          [⟨0, 0, false, true, true⟩] ⟨0, 0, 100, 40⟩).getD []).getD 0
            ⟨0, 0, 0, 0⟩) =
      max 1 (crossExtent ⟨false, false, true, 5, false⟩ ⟨0, 0, 100, 40⟩) ∧
    (primaryFill ⟨false, false, true, 5, false⟩
        ((sizedChildren ⟨false, false, true, 5, false⟩
          [⟨0, 0, false, true, true⟩]
          (primaryExtent ⟨false, false, true, 5, false⟩
            ⟨0, 0, 100, 40⟩)).getD 0
              (⟨0, 0, false, false, false⟩, 0, 0)).1 = true →
      primarySpan ⟨false, false, true, 5, false⟩
          (((clutter_box_layout_allocate ⟨false, false, true, 5, false⟩
            [⟨0, 0, false, true, true⟩] ⟨0, 0, 100, 40⟩).getD []).getD 0
              ⟨0, 0, 0, 0⟩) =
        max 1 ((boxChildSizes ⟨false, false, true, 5, false⟩
          [⟨0, 0, false, true, true⟩]
          (primaryExtent ⟨false, false, true, 5, false⟩
            ⟨0, 0, 100, 40⟩)).getD 0 0)) :=
  allocate_spans_clamped ⟨false, false, true, 5, false⟩
    [⟨0, 0, false, true, true⟩] ⟨0, 0, 100, 40⟩
    ((clutter_box_layout_allocate ⟨false, false, true, 5, false⟩
      [⟨0, 0, false, true, true⟩] ⟨0, 0, 100, 40⟩).getD [])
    (by decide) 0 (by decide)

theorem mirrorSpanX_involutive (W : Int) (b : ActorBox) :
    mirrorSpanX W (mirrorSpanX W b) = b := by
  cases b
  simp only [mirrorSpanX, ActorBox.mk.injEq]
  refine ⟨by ring, trivial, by ring, trivial⟩

theorem mirrorSpanX_width (W : Int) (b : ActorBox) :
    (mirrorSpanX W b).x2 - (mirrorSpanX W b).x1 = b.x2 - b.x1 := by
  cases b
  simp only [mirrorSpanX]
  ring

/-- The horizontal walk with RTL text direction produces exactly the
LTR rectangles with each horizontal span mirrored about the box width. -/
theorem hWalk_rtl_eq (spacing : Int) (ps : Bool) (W H : Int) (x : Int)
    (l : List (ChildSpec × Int × Int)) :
    hWalk spacing ps true W H x l =
      (hWalk spacing ps false W H x l).map (mirrorSpanX W) := by
  induction l generalizing x with
  | nil => rfl
  | cons t rest ih =>
    obtain ⟨c, cs, m⟩ := t
    simp only [hWalk, List.map_cons]
    rw [ih]
    congr 1

/-- Claim C7: when the primary axis is horizontal and the text direction
is RTL, every child rectangle is the LTR rectangle with its horizontal
span `[x1, x2]` replaced by `[W - x1 - (x2-x1), (W - x1 - (x2-x1)) +
(x2-x1)]` (`W` the box width) after all other positioning; the mirroring
preserves spans' widths and is an involution. -/
theorem rtl_mirroring (cfg : LayoutConfig) (children : List ChildSpec)
    (box : ActorBox) (hv : cfg.is_vertical = false)
    (hr : cfg.is_rtl = true) :
    clutter_box_layout_allocate cfg children box =
      Option.map (List.map (mirrorSpanX (box.x2 - box.x1)))
        (clutter_box_layout_allocate
          { cfg with is_rtl := false } children box) ∧
    (∀ b : ActorBox, mirrorSpanX (box.x2 - box.x1)
        (mirrorSpanX (box.x2 - box.x1) b) = b) ∧
    (∀ b : ActorBox, (mirrorSpanX (box.x2 - box.x1) b).x2 -
        (mirrorSpanX (box.x2 - box.x1) b).x1 = b.x2 - b.x1) := by
  refine ⟨?_, fun b => mirrorSpanX_involutive _ b,
    fun b => mirrorSpanX_width _ b⟩
  unfold clutter_box_layout_allocate
  by_cases hemp : children.isEmpty
  · rw [if_pos hemp, if_pos hemp]
    rfl
  · rw [if_neg hemp, if_neg hemp]
    by_cases hok : ∀ c ∈ children,
        0 ≤ c.minimum_size ∧ c.minimum_size ≤ c.natural_size
    · rw [if_pos hok, if_pos hok,
        if_neg (show ¬ cfg.is_vertical = true by simp [hv]),
        if_neg (show ¬ ({ cfg with is_rtl := false } :
          LayoutConfig).is_vertical = true by simp [hv])]
      rw [hr, hWalk_rtl_eq]
      rfl
    · rw [if_neg hok, if_neg hok]
      rfl

/-- Witness for `rtl_mirroring`: one child in a `10 × 5` box. -/
theorem rtl_mirroring_witness :
    clutter_box_layout_allocate ⟨false, false, true, 0, true⟩
        [⟨1, 2, false, true, true⟩] ⟨0, 0, 10, 5⟩ =
      Option.map (List.map (mirrorSpanX ((10 : Int) - 0)))
        (clutter_box_layout_allocate
          { (⟨false, false, true, 0, true⟩ : LayoutConfig) with
            is_rtl := false } [⟨1, 2, false, true, true⟩] ⟨0, 0, 10, 5⟩) ∧
    (∀ b : ActorBox, mirrorSpanX ((10 : Int) - 0)
        (mirrorSpanX ((10 : Int) - 0) b) = b) ∧
    (∀ b : ActorBox, (mirrorSpanX ((10 : Int) - 0) b).x2 -
        (mirrorSpanX ((10 : Int) - 0) b).x1 = b.x2 - b.x1) :=
  rtl_mirroring ⟨false, false, true, 0, true⟩ [⟨1, 2, false, true, true⟩]
    ⟨0, 0, 10, 5⟩ rfl rfl

/-! ## Monotonicity of the pass in the available space -/

theorem enum_reverse_snd_nodup (s : List RequestedSize) :
    (((spreading s).enum.reverse).map Prod.snd).Nodup := by
  rw [List.map_reverse, List.enum_map_snd]
  exact (List.nodup_reverse).mpr (spreading_nodup s)

/-- More `extra_space` never hurts: the distributor's leftover and every
resulting minimum are monotone in `extra_space`. -/
theorem distribute_mono (e e' : Int) (s : List RequestedSize)
    (he : 0 ≤ e) (hee : e ≤ e')
    (hvalid : ∀ j, (getReq s j).minimum_size ≤ (getReq s j).natural_size) :
    (distribute_natural_allocation e s).1 ≤
      (distribute_natural_allocation e' s).1 ∧
    ∀ j, (getReq (distribute_natural_allocation e s).2 j).minimum_size ≤
      (getReq (distribute_natural_allocation e' s).2 j).minimum_size := by
  unfold distribute_natural_allocation
  rw [if_neg (not_lt.mpr he), if_neg (not_lt.mpr (le_trans he hee))]
  exact distributeLoop_mono _ e e' s s (enum_reverse_snd_nodup s) he hee
    rfl (fun j => rfl) (fun j => le_refl _) (fun p hp => rfl) hvalid hvalid

theorem zip_take_eq (a : List ChildSpec) (b : List Int) (k : Nat) :
    (a.zip b).take k = (a.take k).zip (b.take k) := by
  induction a generalizing b k with
  | nil => simp
  | cons x t ih =>
    cases b with
    | nil => simp
    | cons y u =>
      cases k with
      | zero => simp
      | succ n => simp [ih]

theorem countP_take_lt_of_getElem {α : Type} (p : α → Bool) (l : List α)
    (k : Nat) (hk : k < l.length) (h : p l[k] = true) :
    (l.take k).countP p < l.countP p := by
  induction l generalizing k with
  | nil => simp at hk
  | cons a t ih =>
    cases k with
    | zero =>
      simp only [List.take_zero, List.countP_nil, List.countP_cons]
      have hpa : p a = true := h
      simp [hpa]
    | succ n =>
      have hn : n < t.length := by simpa using hk
      have hpn : p t[n] = true := h
      simp only [List.take_succ_cons, List.countP_cons]
      have := ih n hn hpn
      omega

theorem zip_snd_getD (a : List ChildSpec) (b : List Int) (k : Nat)
    (hlen : b.length = a.length) :
    ((a.zip b).map (fun p => p.2)).getD k 0 = b.getD k 0 := by
  rw [show (fun (p : ChildSpec × Int) => p.2) = Prod.snd from rfl,
    List.map_snd_zip a b (by omega)]

theorem zip_expand_map (a : List ChildSpec) (b : List Int)
    (h : a.length ≤ b.length) :
    (a.zip b).map (fun p => p.1.expand) = a.map (·.expand) := by
  rw [show (fun (p : ChildSpec × Int) => p.1.expand) =
      ((fun c => c.expand) ∘ Prod.fst) from rfl,
    ← List.map_map, List.map_fst_zip a b h]

theorem getD_reverse_eq {α : Type} (l : List α) (k : Nat) (d : α)
    (hk : k < l.length) :
    l.reverse.getD k d = l.getD (l.length - 1 - k) d := by
  have h1 : k < l.reverse.length := by simpa using hk
  rw [List.getD_eq_getElem _ _ h1, List.getD_eq_getElem _ _ (by omega)]
  exact List.getElem_reverse h1

theorem map_min_getD (s : List RequestedSize) (j : Nat) :
    (s.map (·.minimum_size)).getD j 0 = (getReq s j).minimum_size :=
  List.getD_map s ⟨0, 0⟩ (·.minimum_size)

theorem expand_flag_getElem (a : List ChildSpec) (k : Nat)
    (hk : k < a.length) (h : (a.map (·.expand)).getD k false = true) :
    a[k].expand = true := by
  rw [List.getD_eq_getElem _ _ (by simpa using hk),
    List.getElem_map] at h
  exact h

theorem toRequest_valid (children : List ChildSpec)
    (hch : ∀ c ∈ children,
      0 ≤ c.minimum_size ∧ c.minimum_size ≤ c.natural_size) :
    ∀ j, (getReq (children.map toRequest) j).minimum_size ≤
      (getReq (children.map toRequest) j).natural_size := by
  apply valid_of_forall_mem
  intro r hr
  obtain ⟨c, hc, rfl⟩ := List.mem_map.mp hr
  exact (hch c hc).2

/-- Claim C3: increasing the space never decreases anyone's share.  For
the gap distributor, raising `extra_space` by one unit never decreases
the amount assigned to any individual request; correspondingly, raising
the container's primary extent by one unit never decreases any child's
allocated `child_size`, in either layout mode. -/
theorem distribution_monotone (e : Int) (s : List RequestedSize)
    (he : 0 ≤ e)
    (hs : ∀ r ∈ s, 0 ≤ r.minimum_size ∧ r.minimum_size ≤ r.natural_size)
    (cfg : LayoutConfig) (children : List ChildSpec) (ext : Int)
    (hch : ∀ c ∈ children,
      0 ≤ c.minimum_size ∧ c.minimum_size ≤ c.natural_size) :
    (∀ j, (getReq (distribute_natural_allocation e s).2 j).minimum_size -
        (getReq s j).minimum_size ≤
      (getReq (distribute_natural_allocation (e + 1) s).2 j).minimum_size -
        (getReq s j).minimum_size) ∧
    (∀ k, k < children.length →
      (boxChildSizes cfg children ext).getD k 0 ≤
        (boxChildSizes cfg children (ext + 1)).getD k 0) := by
  constructor
  · have hvalid := valid_of_forall_mem s (fun r hr => (hs r hr).2)
    obtain ⟨_, hmins⟩ := distribute_mono e (e + 1) s he (by omega) hvalid
    intro j
    have := hmins j
    omega
  · intro k hk
    have hn0 : 0 < children.length := by omega
    by_cases hh : cfg.is_homogeneous = true
    · -- homogeneous mode
      have hplen : (children.reverse.zip
          (children.map (·.minimum_size)).reverse).length =
          children.length := by
        simp [List.length_zip]
      unfold boxChildSizes
      rw [sizedChildren_eq_homog cfg children ext hh,
        sizedChildren_eq_homog cfg children (ext + 1) hh,
        assignSizes_homog_getD _ _ _ k (by omega),
        assignSizes_homog_getD _ _ _ k (by omega)]
      have harg : ext + 1 - ((children.length : Int) - 1) * cfg.spacing =
          (ext - ((children.length : Int) - 1) * cfg.spacing) + 1 := by
        ring
      rw [harg]
      exact homog_share_step_mono
        (ext - ((children.length : Int) - 1) * cfg.spacing)
        (children.length : Int) (by exact_mod_cast hn0) (k : Int)
        (by exact_mod_cast Nat.zero_le k) (by exact_mod_cast hk)
    · -- non-homogeneous mode
      have hh' : cfg.is_homogeneous = false := by
        cases hhv : cfg.is_homogeneous
        · rfl
        · exact absurd hhv hh
      have hreqvalid := toRequest_valid children hch
      have hsumeq : ext + 1 - ((children.length : Int) - 1) * cfg.spacing -
          (children.map (·.minimum_size)).sum =
          (ext - ((children.length : Int) - 1) * cfg.spacing -
            (children.map (·.minimum_size)).sum) + 1 := by
        ring
      have hee : max 0 (ext - ((children.length : Int) - 1) * cfg.spacing -
          (children.map (·.minimum_size)).sum) ≤
          max 0 ((ext - ((children.length : Int) - 1) * cfg.spacing -
            (children.map (·.minimum_size)).sum) + 1) := by
        omega
      obtain ⟨hleft, hmins⟩ := distribute_mono _ _
        (children.map toRequest) (le_max_left _ _) hee hreqvalid
      obtain ⟨hlen, h0, _, _, _, _, _⟩ := distribute_invariant
        (max 0 (ext - ((children.length : Int) - 1) * cfg.spacing -
          (children.map (·.minimum_size)).sum))
        (children.map toRequest) (le_max_left _ _) hreqvalid
      obtain ⟨hlen', h0', _, _, _, _, _⟩ := distribute_invariant
        (max 0 ((ext - ((children.length : Int) - 1) * cfg.spacing -
          (children.map (·.minimum_size)).sum) + 1))
        (children.map toRequest) (le_max_left _ _) hreqvalid
      set res := distribute_natural_allocation
        (max 0 (ext - ((children.length : Int) - 1) * cfg.spacing -
          (children.map (·.minimum_size)).sum))
        (children.map toRequest) with hres_def
      set res' := distribute_natural_allocation
        (max 0 ((ext - ((children.length : Int) - 1) * cfg.spacing -
          (children.map (·.minimum_size)).sum) + 1))
        (children.map toRequest) with hres'_def
      have hmsl : (res.2.map (·.minimum_size)).length = children.length := by
        rw [List.length_map, hlen, List.length_map]
      have hmsl' : (res'.2.map (·.minimum_size)).length =
          children.length := by
        rw [List.length_map, hlen', List.length_map]
      have hplen : (children.reverse.zip
          ((res.2.map (·.minimum_size)).reverse)).length =
          children.length := by
        rw [List.length_zip, List.length_reverse, List.length_reverse,
          hmsl]
        omega
      have hplen' : (children.reverse.zip
          ((res'.2.map (·.minimum_size)).reverse)).length =
          children.length := by
        rw [List.length_zip, List.length_reverse, List.length_reverse,
          hmsl']
        omega
      have hm : ((children.reverse.zip
          ((res.2.map (·.minimum_size)).reverse)).map
            (fun p => p.2)).getD k 0 =
          (getReq res.2 (children.length - 1 - k)).minimum_size := by
        rw [zip_snd_getD _ _ k (by rw [List.length_reverse, hmsl,
          List.length_reverse]),
          getD_reverse_eq _ k 0 (by omega), hmsl, map_min_getD]
      have hm' : ((children.reverse.zip
          ((res'.2.map (·.minimum_size)).reverse)).map
            (fun p => p.2)).getD k 0 =
          (getReq res'.2 (children.length - 1 - k)).minimum_size := by
        rw [zip_snd_getD _ _ k (by rw [List.length_reverse, hmsl',
          List.length_reverse]),
          getD_reverse_eq _ k 0 (by omega), hmsl', map_min_getD]
      have hexpmap : (children.reverse.zip
          ((res.2.map (·.minimum_size)).reverse)).map
            (fun p => p.1.expand) =
          children.reverse.map (·.expand) :=
        zip_expand_map _ _ (by rw [List.length_reverse, List.length_reverse,
          hmsl])
      have hexpmap' : (children.reverse.zip
          ((res'.2.map (·.minimum_size)).reverse)).map
            (fun p => p.1.expand) =
          children.reverse.map (·.expand) :=
        zip_expand_map _ _ (by rw [List.length_reverse, List.length_reverse,
          hmsl'])
      have hcnt_take : ((children.reverse.zip
          ((res.2.map (·.minimum_size)).reverse)).take k).countP
            (fun p => p.1.expand) =
          (children.reverse.take k).countP (·.expand) := by
        rw [zip_take_eq, zip_countP_expand _ _ (by
          simp only [List.length_take, List.length_reverse, hmsl]
          omega)]
      have hcnt_take' : ((children.reverse.zip
          ((res'.2.map (·.minimum_size)).reverse)).take k).countP
            (fun p => p.1.expand) =
          (children.reverse.take k).countP (·.expand) := by
        rw [zip_take_eq, zip_countP_expand _ _ (by
          simp only [List.length_take, List.length_reverse, hmsl']
          omega)]
      have hmono_at := hmins (children.length - 1 - k)
      unfold boxChildSizes
      rw [sizedChildren_eq_false cfg children ext hh',
        sizedChildren_eq_false cfg children (ext + 1) hh', hsumeq,
        ← hres_def, ← hres'_def,
        assignSizes_false_getD _ _ _ k (by omega),
        assignSizes_false_getD _ _ _ k (by omega),
        hexpmap, hexpmap', hm, hm', hcnt_take, hcnt_take']
      by_cases hexp : 0 < countExpand children
      · rw [if_pos hexp, if_pos hexp, if_pos hexp, if_pos hexp]
        by_cases hflag : (children.reverse.map (·.expand)).getD k false =
            true
        · rw [if_pos hflag, if_pos hflag]
          have hkr : k < children.reverse.length := by
            rw [List.length_reverse]
            exact hk
          have hflag' : children.reverse[k].expand = true :=
            expand_flag_getElem _ k hkr hflag
          have hplt := countP_take_lt_of_getElem (·.expand)
            children.reverse k hkr hflag'
          have hcntrev : children.reverse.countP (·.expand) =
              countExpand children := List.countP_reverse _ _
          have hshare := share_mono res.1 res'.1
            (countExpand children : Int)
            ((children.reverse.take k).countP (·.expand) : Int) h0 hleft
            (by exact_mod_cast hexp)
            (by exact_mod_cast Nat.zero_le _)
            (by exact_mod_cast (hcntrev ▸ hplt))
          omega
        · rw [if_neg hflag, if_neg hflag]
          omega
      · rw [if_neg hexp, if_neg hexp, if_neg hexp, if_neg hexp]
        by_cases hflag : (children.reverse.map (·.expand)).getD k false =
            true
        · rw [if_pos hflag]
          omega
        · rw [if_neg hflag]
          omega

/-- Witness for `distribution_monotone`: requests `[⟨0, 5⟩]` with
`extra_space = 2`, and one expanding child in a horizontal
non-homogeneous box of extent `10`. -/
theorem distribution_monotone_witness :
    (∀ j, (getReq (distribute_natural_allocation 2 [⟨0, 5⟩]).2
          j).minimum_size - (getReq [⟨0, 5⟩] j).minimum_size ≤
      (getReq (distribute_natural_allocation (2 + 1) [⟨0, 5⟩]).2
          j).minimum_size - (getReq [⟨0, 5⟩] j).minimum_size) ∧
    (∀ k, k < ([⟨0, 3, true, true, true⟩] : List ChildSpec).length →
      (boxChildSizes ⟨false, false, true, 0, false⟩
          [⟨0, 3, true, true, true⟩] 10).getD k 0 ≤
        (boxChildSizes ⟨false, false, true, 0, false⟩
          [⟨0, 3, true, true, true⟩] (10 + 1)).getD k 0) :=
  distribution_monotone 2 [⟨0, 5⟩] (by decide) (by decide)
    ⟨false, false, true, 0, false⟩ [⟨0, 3, true, true, true⟩] 10
    (by decide)

/-! ## Characterization of the measurement loops -/

/-- Horizontal-layout width loop: sums the visible children's widths and
counts them. -/
theorem measureWidthLoop_false_spec (l : List MeasureChild) (a b : Int)
    (n : Nat) :
    measureWidthLoop false l a b n =
      (a + ((l.filter (·.visible)).map (·.w_min)).sum,
       b + ((l.filter (·.visible)).map (·.w_nat)).sum,
       n + (l.filter (·.visible)).length) := by
  induction l generalizing a b n with
  | nil => simp [measureWidthLoop]
  | cons c rest ih =>
    by_cases hv : c.visible
    · have hstep : measureWidthLoop false (c :: rest) a b n =
          measureWidthLoop false rest (a + c.w_min) (b + c.w_nat)
            (n + 1) := by
        simp [measureWidthLoop, hv]
      rw [hstep, ih]
      simp only [List.filter_cons, hv, if_pos, List.map_cons,
        List.sum_cons, List.length_cons, Prod.mk.injEq]
      refine ⟨by ring, by ring, by omega⟩
    · have hstep : measureWidthLoop false (c :: rest) a b n =
          measureWidthLoop false rest a b n := by
        simp [measureWidthLoop, hv]
      rw [hstep, ih]
      simp only [List.filter_cons]
      rw [if_neg (by simpa using hv)]

/-- Vertical-layout height loop: sums the visible children's heights and
counts them. -/
theorem measureHeightLoop_true_spec (l : List MeasureChild) (a b : Int)
    (n : Nat) :
    measureHeightLoop true l a b n =
      (a + ((l.filter (·.visible)).map (·.h_min)).sum,
       b + ((l.filter (·.visible)).map (·.h_nat)).sum,
       n + (l.filter (·.visible)).length) := by
  induction l generalizing a b n with
  | nil => simp [measureHeightLoop]
  | cons c rest ih =>
    by_cases hv : c.visible
    · have hstep : measureHeightLoop true (c :: rest) a b n =
          measureHeightLoop true rest (a + c.h_min) (b + c.h_nat)
            (n + 1) := by
        simp [measureHeightLoop, hv]
      rw [hstep, ih]
      simp only [List.filter_cons, hv, if_pos, List.map_cons,
        List.sum_cons, List.length_cons, Prod.mk.injEq]
      refine ⟨by ring, by ring, by omega⟩
    · have hstep : measureHeightLoop true (c :: rest) a b n =
          measureHeightLoop true rest a b n := by
        simp [measureHeightLoop, hv]
      rw [hstep, ih]
      simp only [List.filter_cons]
      rw [if_neg (by simpa using hv)]

/-- Vertical-layout width loop: max-accumulates the visible children's
widths.  The result bounds every visible child's width from above, bounds
the accumulators from below, and equals an accumulator or some visible
child's width. -/
theorem measureWidthLoop_true_spec (l : List MeasureChild) (a b : Int)
    (n : Nat) :
    (measureWidthLoop true l a b n).2.2 =
        n + (l.filter (·.visible)).length ∧
    (∀ c ∈ l, c.visible = true →
      c.w_min ≤ (measureWidthLoop true l a b n).1 ∧
      c.w_nat ≤ (measureWidthLoop true l a b n).2.1) ∧
    a ≤ (measureWidthLoop true l a b n).1 ∧
    b ≤ (measureWidthLoop true l a b n).2.1 ∧
    ((measureWidthLoop true l a b n).1 = a ∨
      ∃ c ∈ l, c.visible = true ∧
        (measureWidthLoop true l a b n).1 = c.w_min) ∧
    ((measureWidthLoop true l a b n).2.1 = b ∨
      ∃ c ∈ l, c.visible = true ∧
        (measureWidthLoop true l a b n).2.1 = c.w_nat) := by
  induction l generalizing a b n with
  | nil =>
    refine ⟨by simp [measureWidthLoop], by simp, le_refl _, le_refl _,
      Or.inl rfl, Or.inl rfl⟩
  | cons c rest ih =>
    by_cases hv : c.visible
    · have hstep : measureWidthLoop true (c :: rest) a b n =
          measureWidthLoop true rest (max c.w_min a) (max c.w_nat b)
            (n + 1) := by
        simp [measureWidthLoop, hv]
      obtain ⟨ihn, ihbd, iha, ihb, ihm1, ihm2⟩ :=
        ih (max c.w_min a) (max c.w_nat b) (n + 1)
      rw [hstep]
      refine ⟨by rw [ihn]; simp [List.filter_cons, hv]; omega,
        ?_, le_trans (le_max_right _ _) iha,
        le_trans (le_max_right _ _) ihb, ?_, ?_⟩
      · intro c' hc' hvc'
        rcases List.mem_cons.mp hc' with rfl | hmem
        · exact ⟨le_trans (le_max_left _ _) iha,
            le_trans (le_max_left _ _) ihb⟩
        · exact ihbd c' hmem hvc'
      · rcases ihm1 with heq | ⟨c', hc', hvc', heq⟩
        · rcases max_choice c.w_min a with hmx | hmx
          · exact Or.inr ⟨c, List.mem_cons_self _ _, hv,
              by rw [heq, hmx]⟩
          · exact Or.inl (by rw [heq, hmx])
        · exact Or.inr ⟨c', List.mem_cons_of_mem _ hc', hvc', heq⟩
      · rcases ihm2 with heq | ⟨c', hc', hvc', heq⟩
        · rcases max_choice c.w_nat b with hmx | hmx
          · exact Or.inr ⟨c, List.mem_cons_self _ _, hv,
              by rw [heq, hmx]⟩
          · exact Or.inl (by rw [heq, hmx])
        · exact Or.inr ⟨c', List.mem_cons_of_mem _ hc', hvc', heq⟩
    · have hstep : measureWidthLoop true (c :: rest) a b n =
          measureWidthLoop true rest a b n := by
        simp [measureWidthLoop, hv]
      obtain ⟨ihn, ihbd, iha, ihb, ihm1, ihm2⟩ := ih a b n
      rw [hstep]
      refine ⟨by rw [ihn]; simp [List.filter_cons, hv]; try omega,
        ?_, iha, ihb, ?_, ?_⟩
      · intro c' hc' hvc'
        rcases List.mem_cons.mp hc' with rfl | hmem
        · exact absurd hvc' (by simpa using hv)
        · exact ihbd c' hmem hvc'
      · rcases ihm1 with heq | ⟨c', hc', hvc', heq⟩
        · exact Or.inl heq
        · exact Or.inr ⟨c', List.mem_cons_of_mem _ hc', hvc', heq⟩
      · rcases ihm2 with heq | ⟨c', hc', hvc', heq⟩
        · exact Or.inl heq
        · exact Or.inr ⟨c', List.mem_cons_of_mem _ hc', hvc', heq⟩

/-- Horizontal-layout height loop: max-accumulates the visible children's
heights, same characterization as `measureWidthLoop_true_spec`. -/
theorem measureHeightLoop_false_spec (l : List MeasureChild) (a b : Int)
    (n : Nat) :
    (measureHeightLoop false l a b n).2.2 =
        n + (l.filter (·.visible)).length ∧
    (∀ c ∈ l, c.visible = true →
      c.h_min ≤ (measureHeightLoop false l a b n).1 ∧
      c.h_nat ≤ (measureHeightLoop false l a b n).2.1) ∧
    a ≤ (measureHeightLoop false l a b n).1 ∧
    b ≤ (measureHeightLoop false l a b n).2.1 ∧
    ((measureHeightLoop false l a b n).1 = a ∨
      ∃ c ∈ l, c.visible = true ∧
        (measureHeightLoop false l a b n).1 = c.h_min) ∧
    ((measureHeightLoop false l a b n).2.1 = b ∨
      ∃ c ∈ l, c.visible = true ∧
        (measureHeightLoop false l a b n).2.1 = c.h_nat) := by
  induction l generalizing a b n with
  | nil =>
    refine ⟨by simp [measureHeightLoop], by simp, le_refl _, le_refl _,
      Or.inl rfl, Or.inl rfl⟩
  | cons c rest ih =>
    by_cases hv : c.visible
    · have hstep : measureHeightLoop false (c :: rest) a b n =
          measureHeightLoop false rest (max c.h_min a) (max c.h_nat b)
            (n + 1) := by
        simp [measureHeightLoop, hv]
      obtain ⟨ihn, ihbd, iha, ihb, ihm1, ihm2⟩ :=
        ih (max c.h_min a) (max c.h_nat b) (n + 1)
      rw [hstep]
      refine ⟨by rw [ihn]; simp [List.filter_cons, hv]; omega,
        ?_, le_trans (le_max_right _ _) iha,
        le_trans (le_max_right _ _) ihb, ?_, ?_⟩
      · intro c' hc' hvc'
        rcases List.mem_cons.mp hc' with rfl | hmem
        · exact ⟨le_trans (le_max_left _ _) iha,
            le_trans (le_max_left _ _) ihb⟩
        · exact ihbd c' hmem hvc'
      · rcases ihm1 with heq | ⟨c', hc', hvc', heq⟩
        · rcases max_choice c.h_min a with hmx | hmx
          · exact Or.inr ⟨c, List.mem_cons_self _ _, hv,
              by rw [heq, hmx]⟩
          · exact Or.inl (by rw [heq, hmx])
        · exact Or.inr ⟨c', List.mem_cons_of_mem _ hc', hvc', heq⟩
      · rcases ihm2 with heq | ⟨c', hc', hvc', heq⟩
        · rcases max_choice c.h_nat b with hmx | hmx
          · exact Or.inr ⟨c, List.mem_cons_self _ _, hv,
              by rw [heq, hmx]⟩
          · exact Or.inl (by rw [heq, hmx])
        · exact Or.inr ⟨c', List.mem_cons_of_mem _ hc', hvc', heq⟩
    · have hstep : measureHeightLoop false (c :: rest) a b n =
          measureHeightLoop false rest a b n := by
        simp [measureHeightLoop, hv]
      obtain ⟨ihn, ihbd, iha, ihb, ihm1, ihm2⟩ := ih a b n
      rw [hstep]
      refine ⟨by rw [ihn]; simp [List.filter_cons, hv]; try omega,
        ?_, iha, ihb, ?_, ?_⟩
      · intro c' hc' hvc'
        rcases List.mem_cons.mp hc' with rfl | hmem
        · exact absurd hvc' (by simpa using hv)
        · exact ihbd c' hmem hvc'
      · rcases ihm1 with heq | ⟨c', hc', hvc', heq⟩
        · exact Or.inl heq
        · exact Or.inr ⟨c', List.mem_cons_of_mem _ hc', hvc', heq⟩
      · rcases ihm2 with heq | ⟨c', hc', hvc', heq⟩
        · exact Or.inl heq
        · exact Or.inr ⟨c', List.mem_cons_of_mem _ hc', hvc', heq⟩

theorem filter_reverse_sum_w_min (children : List MeasureChild) :
    ((children.reverse.filter (·.visible)).map (·.w_min)).sum =
      ((children.filter (·.visible)).map (·.w_min)).sum := by
  rw [List.filter_reverse, List.map_reverse, List.sum_reverse]

/-- Claim C6: with visible children reporting nonnegative sizes, the
primary-axis query returns the sum of the visible minimum (respectively
natural) sizes plus `spacing*(n-1)` when more than one child is visible
(no spacing term otherwise); the cross-axis query returns the maximum of
the visible minimum (respectively natural) sizes with no spacing; and
invisible children contribute nothing to either result. -/
theorem measurement_spec (spacing : Int) (rtl : Bool)
    (children : List MeasureChild)
    (hnn : ∀ c ∈ children, 0 ≤ c.w_min ∧ 0 ≤ c.w_nat ∧
      0 ≤ c.h_min ∧ 0 ≤ c.h_nat) :
    (get_preferred_width false spacing rtl children =
      (((children.filter (·.visible)).map (·.w_min)).sum +
        (if 1 < (children.filter (·.visible)).length then
          spacing * (((children.filter (·.visible)).length : Int) - 1)
         else 0),
       ((children.filter (·.visible)).map (·.w_nat)).sum +
        (if 1 < (children.filter (·.visible)).length then
          spacing * (((children.filter (·.visible)).length : Int) - 1)
         else 0))) ∧
    (get_preferred_height true spacing rtl children =
      (((children.filter (·.visible)).map (·.h_min)).sum +
        (if 1 < (children.filter (·.visible)).length then
          spacing * (((children.filter (·.visible)).length : Int) - 1)
         else 0),
       ((children.filter (·.visible)).map (·.h_nat)).sum +
        (if 1 < (children.filter (·.visible)).length then
          spacing * (((children.filter (·.visible)).length : Int) - 1)
         else 0))) ∧
    (∀ c ∈ children, c.visible = true →
      c.w_min ≤ (get_preferred_width true spacing rtl children).1 ∧
      c.w_nat ≤ (get_preferred_width true spacing rtl children).2) ∧
    (children.filter (·.visible) ≠ [] →
      (∃ c ∈ children, c.visible = true ∧
        (get_preferred_width true spacing rtl children).1 = c.w_min) ∧
      (∃ c ∈ children, c.visible = true ∧
        (get_preferred_width true spacing rtl children).2 = c.w_nat)) ∧
    (∀ c ∈ children, c.visible = true →
      c.h_min ≤ (get_preferred_height false spacing rtl children).1 ∧
      c.h_nat ≤ (get_preferred_height false spacing rtl children).2) ∧
    (children.filter (·.visible) ≠ [] →
      (∃ c ∈ children, c.visible = true ∧
        (get_preferred_height false spacing rtl children).1 = c.h_min) ∧
      (∃ c ∈ children, c.visible = true ∧
        (get_preferred_height false spacing rtl children).2 = c.h_nat)) := by
  have hvis_wit : children.filter (·.visible) ≠ [] →
      ∃ cv ∈ children, cv.visible = true := by
    intro hvis
    cases hfil : children.filter (·.visible) with
    | nil => exact absurd hfil hvis
    | cons a t =>
      have : a ∈ children.filter (·.visible) := by
        rw [hfil]
        exact List.mem_cons_self _ _
      obtain ⟨hmem, hvc⟩ := List.mem_filter.mp this
      exact ⟨a, hmem, hvc⟩
  refine ⟨?_, ?_, ?_, ?_, ?_, ?_⟩
  · -- horizontal primary: width sums plus spacing
    unfold get_preferred_width
    cases rtl <;>
      simp [measureWidthLoop_false_spec, List.filter_reverse,
        List.map_reverse, List.sum_reverse, List.length_reverse] <;>
      split <;> simp
  · -- vertical primary: height sums plus spacing
    unfold get_preferred_height
    simp [measureHeightLoop_true_spec]
    split <;> simp
  · -- vertical cross: width upper bounds
    intro c hc hvc
    obtain ⟨_, hbd, _, _, _, _⟩ := measureWidthLoop_true_spec children 0 0 0
    have hred : get_preferred_width true spacing rtl children =
        ((measureWidthLoop true children 0 0 0).1,
         (measureWidthLoop true children 0 0 0).2.1) := by
      unfold get_preferred_width
      simp
    rw [hred]
    exact hbd c hc hvc
  · -- vertical cross: the width results are attained
    intro hvis
    obtain ⟨cv, hcvmem, hcvvis⟩ := hvis_wit hvis
    obtain ⟨_, hbd, _, _, hm1, hm2⟩ := measureWidthLoop_true_spec children 0 0 0
    have hred : get_preferred_width true spacing rtl children =
        ((measureWidthLoop true children 0 0 0).1,
         (measureWidthLoop true children 0 0 0).2.1) := by
      unfold get_preferred_width
      simp
    rw [hred]
    constructor
    · rcases hm1 with heq | ⟨c, hc, hvc, heq⟩
      · refine ⟨cv, hcvmem, hcvvis, ?_⟩
        have hub := (hbd cv hcvmem hcvvis).1
        have h0 := (hnn cv hcvmem).1
        omega
      · exact ⟨c, hc, hvc, heq⟩
    · rcases hm2 with heq | ⟨c, hc, hvc, heq⟩
      · refine ⟨cv, hcvmem, hcvvis, ?_⟩
        have hub := (hbd cv hcvmem hcvvis).2
        have h0 := (hnn cv hcvmem).2.1
        omega
      · exact ⟨c, hc, hvc, heq⟩
  · -- horizontal cross: height upper bounds
    intro c hc hvc
    cases rtl with
    | false =>
      obtain ⟨_, hbd, _, _, _, _⟩ := measureHeightLoop_false_spec children 0 0 0
      have hred : get_preferred_height false spacing false children =
          ((measureHeightLoop false children 0 0 0).1,
           (measureHeightLoop false children 0 0 0).2.1) := by
        unfold get_preferred_height
        simp
      rw [hred]
      exact hbd c hc hvc
    | true =>
      obtain ⟨_, hbd, _, _, _, _⟩ :=
        measureHeightLoop_false_spec children.reverse 0 0 0
      have hred : get_preferred_height false spacing true children =
          ((measureHeightLoop false children.reverse 0 0 0).1,
           (measureHeightLoop false children.reverse 0 0 0).2.1) := by
        unfold get_preferred_height
        simp
      rw [hred]
      exact hbd c (List.mem_reverse.mpr hc) hvc
  · -- horizontal cross: the height results are attained
    intro hvis
    obtain ⟨cv, hcvmem, hcvvis⟩ := hvis_wit hvis
    cases rtl with
    | false =>
      obtain ⟨_, hbd, _, _, hm1, hm2⟩ :=
        measureHeightLoop_false_spec children 0 0 0
      have hred : get_preferred_height false spacing false children =
          ((measureHeightLoop false children 0 0 0).1,
           (measureHeightLoop false children 0 0 0).2.1) := by
        unfold get_preferred_height
        simp
      rw [hred]
      constructor
      · rcases hm1 with heq | ⟨c, hc, hvc, heq⟩
        · refine ⟨cv, hcvmem, hcvvis, ?_⟩
          have hub := (hbd cv hcvmem hcvvis).1
          have h0 := (hnn cv hcvmem).2.2.1
          omega
        · exact ⟨c, hc, hvc, heq⟩
      · rcases hm2 with heq | ⟨c, hc, hvc, heq⟩
        · refine ⟨cv, hcvmem, hcvvis, ?_⟩
          have hub := (hbd cv hcvmem hcvvis).2
          have h0 := (hnn cv hcvmem).2.2.2
          omega
        · exact ⟨c, hc, hvc, heq⟩
    | true =>
      obtain ⟨_, hbd, _, _, hm1, hm2⟩ :=
        measureHeightLoop_false_spec children.reverse 0 0 0
      have hred : get_preferred_height false spacing true children =
          ((measureHeightLoop false children.reverse 0 0 0).1,
           (measureHeightLoop false children.reverse 0 0 0).2.1) := by
        unfold get_preferred_height
        simp
      rw [hred]
      constructor
      · rcases hm1 with heq | ⟨c, hc, hvc, heq⟩
        · refine ⟨cv, hcvmem, hcvvis, ?_⟩
          have hub := (hbd cv (List.mem_reverse.mpr hcvmem) hcvvis).1
          have h0 := (hnn cv hcvmem).2.2.1
          omega
        · exact ⟨c, List.mem_reverse.mp hc, hvc, heq⟩
      · rcases hm2 with heq | ⟨c, hc, hvc, heq⟩
        · refine ⟨cv, hcvmem, hcvvis, ?_⟩
          have hub := (hbd cv (List.mem_reverse.mpr hcvmem) hcvvis).2
          have h0 := (hnn cv hcvmem).2.2.2
          omega
        · exact ⟨c, List.mem_reverse.mp hc, hvc, heq⟩

/-- Witness for `measurement_spec`: two visible children (widths
`10/15` and `20/25`) and one invisible child, spacing `5`: the horizontal
primary query returns `(10+20+5, 15+25+5)`. -/
theorem measurement_spec_witness :
    get_preferred_width false 5 false
      [⟨true, 10, 15, 3, 4⟩, ⟨false, 100, 100, 100, 100⟩,
        ⟨true, 20, 25, 7, 8⟩] = (35, 45) := by
  have h := (measurement_spec 5 false
    [⟨true, 10, 15, 3, 4⟩, ⟨false, 100, 100, 100, 100⟩,
      ⟨true, 20, 25, 7, 8⟩] (by decide)).1
  rw [h]
  decide

end Clutter
